import Mathlib

set_option maxRecDepth 4000

/-!
Verification development for the nostr-social-duck library: a directed
social-follow graph built from Nostr kind-3 follow lists, with
shortest-path and distance queries, a precomputed root-distance index,
and incremental delta maintenance.

The definitions below are a shallow embedding of the TypeScript source:
the DuckDB table nsd_follows becomes a list of Follow rows, SQL queries
become list traversals, and the recursive CTE searches become fuel-bounded
layered BFS.  Functions that can throw are modelled in the Except monad.
-/

namespace NSD

abbrev PubKey := String

/-- Test whether a character is a hexadecimal digit, as in the regex
[0-9a-f] with the case-insensitive flag from utils isHex and isHexKey;
the code points are 0 to 9, a to f and A to F. -/
def isHexDigitChar (c : Char) : Bool :=
  (48 ≤ c.toNat && c.toNat ≤ 57) ||
  (97 ≤ c.toNat && c.toNat ≤ 102) ||
  (65 ≤ c.toNat && c.toNat ≤ 70)

/-- Embeds isHexKey from utils: a 64 character hexadecimal string. -/
def isHexKey (s : String) : Bool :=
  s.length == 64 && s.data.all isHexDigitChar

/-- ASCII lower-casing of one character; agrees with JavaScript
toLowerCase on the ASCII identifiers used by the library.  Code points
65 to 90 are the upper-case letters, shifted by 32. -/
def lowerChar (c : Char) : Char :=
  if 65 ≤ c.toNat && c.toNat ≤ 90 then Char.ofNat (c.toNat + 32) else c

/-- Models JavaScript String.prototype.toLowerCase for ASCII strings. -/
def jsToLower (s : String) : String :=
  ⟨s.data.map lowerChar⟩

/-- Embeds normalizePubkey from the parser module: validate the 64
character hex shape, then lower-case; throws on invalid input. -/
def normalizePubkey (pubkey : String) : Except String String :=
  if isHexKey pubkey then .ok (jsToLower pubkey)
  else .error ("Invalid pubkey format: " ++ pubkey)

/-- A row of the nsd_follows table: one directed follow edge with the
timestamp of the event that produced it. -/
structure Follow where
  follower : PubKey
  followed : PubKey
  created_at : Nat
deriving DecidableEq, Repr

/-- The nsd_follows table contents.  The real table has primary key
(follower, followed); ingestion preserves that uniqueness. -/
abbrev FollowsTable := List Follow

/-- A Nostr event restricted to the fields ingestion reads.  The id,
content and sig fields of NIP-01 events never influence the graph. -/
structure NostrEvent where
  pubkey : PubKey
  created_at : Nat
  kind : Nat
  tags : List (List String)
deriving DecidableEq, Repr

/-- A path through the social graph, as returned by findShortestPath. -/
structure SocialPath where
  path : List PubKey
  distance : Nat
deriving DecidableEq, Repr

/-! ## Edge store queries (direct SQL point lookups) -/

/-- SQL: SELECT 1 FROM nsd_follows WHERE follower_pubkey = a AND
followed_pubkey = b (checkDirectConnection). -/
def hasEdge (g : FollowsTable) (a b : PubKey) : Bool :=
  g.any fun f => f.follower == a && f.followed == b

/-- SQL existence test used by pubkeyExists: p appears as follower or
followed in some row. -/
def pubkeyExistsIn (g : FollowsTable) (p : PubKey) : Bool :=
  g.any fun f => f.follower == p || f.followed == p

/-- Out-neighbours of a node: followed_pubkey of rows whose follower is a. -/
def succs (g : FollowsTable) (a : PubKey) : List PubKey :=
  (g.filter fun f => f.follower == a).map (·.followed)

/-- In-neighbours of a node: follower_pubkey of rows whose followed is b. -/
def preds (g : FollowsTable) (b : PubKey) : List PubKey :=
  (g.filter fun f => f.followed == b).map (·.follower)

/-- The two-hop join of checkDistance2Connection, as a boolean test:
some intermediate m with edges a to m and m to b. -/
def hasTwoHop (g : FollowsTable) (a b : PubKey) : Bool :=
  g.any fun f1 => f1.follower == a &&
    g.any fun f2 => f2.follower == f1.followed && f2.followed == b

/-- The two-hop join returning the first intermediate row, mirroring the
LIMIT 1 row of checkDistance2Connection. -/
def findTwoHopMid (g : FollowsTable) (a b : PubKey) : Option PubKey :=
  g.findSome? fun f1 =>
    if f1.follower == a &&
        g.any (fun f2 => f2.follower == f1.followed && f2.followed == b) then
      some f1.followed
    else none

/-! ## Generic list helpers -/

/-- First-occurrence deduplication against a seen list; models both the
DISTINCT of the SQL candidate queries and JavaScript Set insertion
order. -/
def dedupFirstAux (seen : List PubKey) : List PubKey → List PubKey
  | [] => []
  | m :: ms =>
    if seen.contains m then dedupFirstAux seen ms
    else m :: dedupFirstAux (m :: seen) ms

/-- First-occurrence deduplication of a list of keys. -/
def dedupFirst (l : List PubKey) : List PubKey := dedupFirstAux [] l

/-- Splits a list into chunks of n elements, with enough fuel. -/
def chunksAux (n : Nat) : Nat → List α → List (List α)
  | 0, _ => []
  | _, [] => []
  | fuel + 1, l => l.take n :: chunksAux n fuel (l.drop n)

/-- Splits a list into consecutive chunks of n elements, as the batch
slicing loops of ingestEvents do with BATCH_SIZE. -/
def chunksOf (n : Nat) (l : List α) : List (List α) := chunksAux n l.length l

/-- Minimum of a list of naturals, as the ORDER BY total ASC LIMIT 1 of
the intersection queries computes it; none on the empty list. -/
def minNat? : List Nat → Option Nat :=
  List.foldl (fun b c =>
    match b with
    | none => some c
    | some b => if c < b then some c else some b) none

/-! ## Bidirectional distance search (findShortestDistance) -/

/-- One full BFS over a successor function: table accumulates (node,
first depth reached) pairs, frontier is the working set of the last
layer.  Models the USING KEY recursive CTE with its visited check. -/
def bfsAux (next : PubKey → List PubKey) :
    Nat → List (PubKey × Nat) → List PubKey → Nat → List (PubKey × Nat)
  | 0, table, _, _ => table
  | fuel + 1, table, frontier, depth =>
    if frontier.isEmpty then table
    else
      let cand := dedupFirstAux (table.map Prod.fst) (frontier.flatMap next)
      bfsAux next fuel (table ++ cand.map (fun c => (c, depth + 1))) cand (depth + 1)

/-- Layered BFS from a start node, recording the first depth at which
each node is reached, up to the given number of layers. -/
def bfsFrom (next : PubKey → List PubKey) (fuel : Nat) (start : PubKey) :
    List (PubKey × Nat) :=
  bfsAux next fuel [(start, 0)] [start] 0

/-- The intersection query of the bidirectional search: for every node in
the forward table other than the endpoints that also appears in the
backward table, sum the two depths, and take the minimum total. -/
def searchMinTotal (fwd bwd : List (PubKey × Nat)) (nf nt : PubKey) : Option Nat :=
  minNat? (fwd.filterMap fun r =>
    if r.1 == nf || r.1 == nt then none
    else (bwd.lookup r.1).map (r.2 + ·))

/-- Embeds findShortestDistance from graph-analysis: normalization, the
same-node fast path, the source existence check (skipped when
assumeSourceExists is set, as getDistancesBatchBidirectional does), the
direct and two-hop fast paths, then the bidirectional depth-bounded
search with each side limited to maxDepth / 2 layers. -/
def findShortestDistance (g : FollowsTable) (fromP toP : String)
    (maxDepth : Nat) (assumeSourceExists : Bool) : Except String (Option Nat) := do
  let nf ← normalizePubkey fromP
  let nt ← normalizePubkey toP
  if nf == nt then return some 0
  if !assumeSourceExists && !pubkeyExistsIn g nf then return none
  if hasEdge g nf nt then return some 1
  if maxDepth ≥ 2 && hasTwoHop g nf nt then return some 2
  let s := maxDepth / 2
  let fwd := bfsFrom (succs g) s nf
  let bwd := bfsFrom (preds g) s nt
  return searchMinTotal fwd bwd nf nt

/-! ## Bidirectional path search (findShortestPath) -/

/-- A row of the path-tracking recursive searches: node, depth, and the
path list accumulated by list_append. -/
abbrev Row := PubKey × Nat × List PubKey

/-- Candidate rows of one recursive step of the path-tracking search:
successors of frontier rows, excluding nodes already on the row path
(the NOT list_contains cycle guard). -/
def candPaths (next : PubKey → List PubKey) (frontier : List Row) (depth : Nat) :
    List Row :=
  frontier.flatMap fun r =>
    (next r.1).filterMap fun m =>
      if r.2.2.contains m then none
      else some (m, depth + 1, r.2.2 ++ [m])

/-- Keyed deduplication of candidate rows against already-visited keys,
keeping the first row per new node. -/
def dedupRows (ks : List PubKey) : List Row → List Row
  | [] => []
  | r :: rs =>
    if ks.contains r.1 then dedupRows ks rs
    else r :: dedupRows (r.1 :: ks) rs

/-- Layered BFS with path tracking, the USING KEY searches of
findShortestPath. -/
def bfsPathAux (next : PubKey → List PubKey) :
    Nat → List Row → List Row → Nat → List Row
  | 0, table, _, _ => table
  | fuel + 1, table, frontier, depth =>
    if frontier.isEmpty then table
    else
      let cand := dedupRows (table.map (·.1)) (candPaths next frontier depth)
      bfsPathAux next fuel (table ++ cand) cand (depth + 1)

/-- Path-tracking BFS from a start node. -/
def bfsPathFrom (next : PubKey → List PubKey) (fuel : Nat) (start : PubKey) :
    List Row :=
  bfsPathAux next fuel [(start, 0, [start])] [(start, 0, [start])] 0

/-- One comparison step of ORDER BY total ASC LIMIT 1 over rows keyed by
their total distance. -/
def pickMinRow {β : Type} (b : Option (Nat × β)) (c : Nat × β) :
    Option (Nat × β) :=
  match b with
  | none => some c
  | some b => if c.1 < b.1 then some c else some b

/-- The intersection of the path-tracking searches: joined on the node,
excluding the endpoints, keeping total distance together with both
stored paths, minimal total first (ORDER BY total_distance ASC LIMIT 1). -/
def bestMeeting (fwdRows bwdRows : List Row) (nf nt : PubKey) :
    Option (Nat × List PubKey × List PubKey) :=
  let cands := fwdRows.filterMap fun r =>
    if r.1 == nf || r.1 == nt then none
    else (bwdRows.find? (·.1 == r.1)).map fun rb => (r.2.1 + rb.2.1, r.2.2, rb.2.2)
  cands.foldl pickMinRow none

/-- Embeds findShortestPath from graph-analysis: normalization, the
same-node path, existence check of both endpoints, the direct and
two-hop fast paths with explicit paths, then the path-tracking
bidirectional search.  The final path is forwardPath concatenated with
the backward path without its first element, reversed, exactly as the
source combines the two stored lists. -/
def findShortestPath (g : FollowsTable) (fromP toP : String)
    (maxDepth : Nat) : Except String (Option SocialPath) := do
  let nf ← normalizePubkey fromP
  let nt ← normalizePubkey toP
  if nf == nt then return some ⟨[nf], 0⟩
  if !(pubkeyExistsIn g nf && pubkeyExistsIn g nt) then return none
  if hasEdge g nf nt then return some ⟨[nf, nt], 1⟩
  if maxDepth ≥ 2 then
    match findTwoHopMid g nf nt with
    | some mid => return some ⟨[nf, mid, nt], 2⟩
    | none => pure ()
  let s := maxDepth / 2
  let fwdRows := bfsPathFrom (succs g) s nf
  let bwdRows := bfsPathFrom (preds g) s nt
  match bestMeeting fwdRows bwdRows nf nt with
  | none => return none
  | some (total, fp, bp) => return some ⟨fp ++ (bp.drop 1).reverse, total⟩

/-! ## Users within distance -/

/-- Insertion into a sorted string list, for the ORDER BY of the
reachability query. -/
def insertSorted (x : String) : List String → List String
  | [] => [x]
  | y :: ys => if x ≤ y then x :: y :: ys else y :: insertSorted x ys

/-- Sorts strings ascending, the ORDER BY end_pubkey of the reachability
query. -/
def sortStrings (l : List String) : List String :=
  l.foldr insertSorted []

/-- Embeds getUsersWithinDistance from graph-analysis: normalization,
empty result for distance below one, none when the start node is absent
from the graph, otherwise the recursive reachability CTE.  The CTE seeds
with the direct follows at distance one and expands while
current_distance is below the bound, with the visited node check; the
output excludes the start node and is sorted. -/
def getUsersWithinDistance (g : FollowsTable) (fromP : String)
    (distance : Int) : Except String (Option (List PubKey)) := do
  let nf ← normalizePubkey fromP
  if distance < 1 then return some []
  if !pubkeyExistsIn g nf then return none
  let seeds := dedupFirstAux [] (succs g nf)
  let table := bfsAux (succs g) (distance.toNat - 1) (seeds.map (·, 1)) seeds 1
  return some (sortStrings ((table.map (·.1)).filter (· ≠ nf)))

/-! ## Point queries -/

/-- Embeds isDirectFollow: normalize both keys, then the direct edge
lookup. -/
def isDirectFollow (g : FollowsTable) (followerP followedP : String) :
    Except String Bool := do
  let na ← normalizePubkey followerP
  let nb ← normalizePubkey followedP
  return hasEdge g na nb

/-- Embeds areMutualFollows: the self-join counting rows with the edge in
both directions is nonempty exactly when both edges exist. -/
def areMutualFollows (g : FollowsTable) (p1 p2 : String) :
    Except String Bool := do
  let na ← normalizePubkey p1
  let nb ← normalizePubkey p2
  return hasEdge g na nb && hasEdge g nb na

/-- Embeds getPubkeyDegree: counts of rows with the key as follower and
as followed. -/
def getPubkeyDegree (g : FollowsTable) (p : String) :
    Except String (Nat × Nat) := do
  let n ← normalizePubkey p
  return ((g.filter fun f => f.follower == n).length,
          (g.filter fun f => f.followed == n).length)

/-! ## Root distances table -/

/-- Embeds buildRootDistancesTable: a fresh table seeded with the
normalized root at distance zero, then maxDepth layers of BFS, each layer
inserting the not-yet-present followed targets of the frontier at the
next distance, stopping early on an empty frontier.  The sub-batching of
each layer does not change the resulting rows and is not modelled. -/
def buildRootDistancesTable (g : FollowsTable) (rootPubkey : String)
    (maxDepth : Nat) : Except String (List (PubKey × Nat)) := do
  let nr ← normalizePubkey rootPubkey
  return bfsFrom (succs g) maxDepth nr

/-- Embeds getDistanceFromRoot: normalize, then the primary key lookup in
nsd_root_distances. -/
def getDistanceFromRoot (table : List (PubKey × Nat)) (targetPubkey : String) :
    Except String (Option Nat) := do
  let nt ← normalizePubkey targetPubkey
  return table.lookup nt

/-- The candidate SELECT of one delta round: followed targets of frontier
members that have a table entry, where the propagated distance respects
maxDepth and the target is absent or strictly improved; DISTINCT keeps
first occurrences. -/
def deltaCandidates (g : FollowsTable) (maxD : Nat)
    (table : List (PubKey × Nat)) (frontier : List PubKey) : List PubKey :=
  dedupFirstAux [] (g.filterMap fun f =>
    if frontier.contains f.follower then
      match table.lookup f.follower with
      | some df =>
        if df + 1 ≤ maxD then
          match table.lookup f.followed with
          | none => some f.followed
          | some dt => if df + 1 < dt then some f.followed else none
        else none
      | none => none
    else none)

/-- Distances plus one of the parents of t that are present in the given
table, the MIN aggregation input of the delta INSERT. -/
def parentVals (g : FollowsTable) (table : List (PubKey × Nat))
    (t : PubKey) : List Nat :=
  g.filterMap fun f =>
    if f.followed == t then (table.lookup f.follower).map (· + 1) else none

/-- The DELETE then INSERT of one delta round: remove all updated keys,
then insert each with the minimum parent distance plus one computed over
the reduced table; targets with no remaining parents produce no row. -/
def deltaApply (g : FollowsTable) (table : List (PubKey × Nat))
    (upds : List PubKey) : List (PubKey × Nat) :=
  let reduced := table.filter fun e => !upds.contains e.1
  reduced ++ upds.filterMap fun t => (minNat? (parentVals g reduced t)).map ((t, ·))

/-- The iteration loop of updateRootDistancesDelta.  The boolean reports
whether the loop stopped via one of its break conditions (empty frontier
or no updates) rather than by exhausting the iteration budget. -/
def deltaLoopAux (g : FollowsTable) (maxD : Nat) :
    Nat → List (PubKey × Nat) → List PubKey → List (PubKey × Nat) × Bool
  | 0, table, _ => (table, false)
  | fuel + 1, table, frontier =>
    if frontier.isEmpty then (table, true)
    else
      let upds := deltaCandidates g maxD table frontier
      if upds.isEmpty then (table, true)
      else deltaLoopAux g maxD fuel (deltaApply g table upds) upds

/-- Embeds updateRootDistancesDelta: nothing to do without updated keys
or without root metadata; otherwise normalize the updated keys (throwing
on invalid ones) and run at most maxDepth + 2 propagation rounds.  The
metadata pair carries root_pubkey and root_depth; the root_built_at
timestamp is not part of the model. -/
def updateRootDistancesDelta (g : FollowsTable)
    (meta : Option (PubKey × Nat)) (table : List (PubKey × Nat))
    (updatedPubkeys : List String) :
    Except String (List (PubKey × Nat) × Bool) :=
  if updatedPubkeys.isEmpty then .ok (table, true)
  else
    match meta with
    | none => .ok (table, true)
    | some (_, maxD) => do
      let normd ← updatedPubkeys.mapM normalizePubkey
      return deltaLoopAux g maxD (maxD + 2) table normd

/-! ## Ingestion -/

/-- Embeds validateKind3Event.  The created_at and tags checks cannot
fail in this typed model (timestamps are naturals and tags are lists),
so only the kind check remains. -/
def validateKind3Event (e : NostrEvent) : Except String Unit :=
  if e.kind ≠ 3 then
    .error ("Expected Kind 3 event, got Kind " ++ toString e.kind)
  else .ok ()

/-- The tag scan of parseKind3Event: p tags with a valid 64 character hex
key produce a follow row with the raw event pubkey as follower and the
lower-cased tag key as followed. -/
def parseFollowsOf (e : NostrEvent) : List Follow :=
  e.tags.filterMap fun tag =>
    match tag with
    | "p" :: pk :: _ =>
      if isHexKey pk then some ⟨e.pubkey, jsToLower pk, e.created_at⟩ else none
    | _ => none

/-- Embeds parseKind3Event: validate, then extract the follow rows. -/
def parseKind3Event (e : NostrEvent) : Except String (List Follow) := do
  validateKind3Event e
  return parseFollowsOf e

/-- One step of the latest-event map of ingestEvents: keep the stored
event unless the new one has a strictly greater timestamp; JavaScript
Map preserves first-insertion order of keys. -/
def insertLatest (acc : List NostrEvent) (e : NostrEvent) : List NostrEvent :=
  if acc.any (·.pubkey == e.pubkey) then
    acc.map fun x =>
      if x.pubkey == e.pubkey && e.created_at > x.created_at then e else x
  else acc ++ [e]

/-- The per-author deduplication of ingestEvents: for each author, the
event with the greatest created_at, first one on ties, in author
first-appearance order. -/
def dedupLatest (events : List NostrEvent) : List NostrEvent :=
  events.foldl insertLatest []

/-- Accumulator of the parse pass of processEventBatch: seen follow keys,
collected unique follows, and authors whose edges will be deleted.  The
source encodes a seen key as the string follower:followed, which is
injective here because followed keys are 64 character hex, so the pair
itself is stored. -/
def batchStep (acc : List (PubKey × PubKey) × List Follow × List PubKey)
    (e : NostrEvent) :
    Except String (List (PubKey × PubKey) × List Follow × List PubKey) := do
  let fs ← parseKind3Event e
  if fs.isEmpty then return acc
  let del := if acc.2.2.contains e.pubkey then acc.2.2 else acc.2.2 ++ [e.pubkey]
  let (seen, uniq) := fs.foldl (fun (p : List (PubKey × PubKey) × List Follow) f =>
    if p.1.contains (f.follower, f.followed) then p
    else ((f.follower, f.followed) :: p.1, p.2 ++ [f])) (acc.1, acc.2.1)
  return (seen, uniq, del)

/-- Embeds processEventBatch: parse and deduplicate, skip the database
phase when no follows were produced, otherwise delete every collected
author and append the collected unique follows. -/
def processEventBatch (g : FollowsTable) (events : List NostrEvent) :
    Except String FollowsTable := do
  if events.isEmpty then return g
  let (_, uniq, del) ← events.foldlM batchStep ([], [], [])
  if uniq.isEmpty then return g
  return g.filter (fun f => !del.contains f.follower) ++ uniq

/-- Embeds ingestEvents: nothing on an empty batch, then per-author
latest-event deduplication, then batch processing in chunks of 250. -/
def ingestEvents (g : FollowsTable) (events : List NostrEvent) :
    Except String FollowsTable := do
  if events.isEmpty then return g
  (chunksOf 250 (dedupLatest events)).foldlM processEventBatch g

/-- Embeds the single event ingestion, which delegates to the batch
function. -/
def ingestEvent (g : FollowsTable) (e : NostrEvent) :
    Except String FollowsTable :=
  ingestEvents g [e]

/-! ## The analyzer state machine -/

/-- The state of a DuckDBSocialGraphAnalyzer instance: the stored graph,
the nsd_root_distances table with its existence flag, the root metadata
rows (root_pubkey and root_depth), and the object fields rootPubkey,
rootTableValid, closed and maxDepth. -/
structure AnalyzerState where
  follows : FollowsTable
  rootTable : List (PubKey × Nat)
  rootTableBuilt : Bool
  meta : Option (PubKey × Nat)
  rootPubkey : Option PubKey
  rootTableValid : Bool
  closed : Bool
  maxDepth : Nat
deriving Repr

/-- The error thrown by every guarded method of a closed analyzer. -/
def closedMsg : String := "Analyzer has been closed"

/-- Runs buildRootDistancesTable on an analyzer state, recording the new
table, its existence, and the root metadata, as the build writes them. -/
def anBuild (st : AnalyzerState) (nr : PubKey) : Except String AnalyzerState := do
  let t ← buildRootDistancesTable st.follows nr st.maxDepth
  return { st with rootTable := t, rootTableBuilt := true,
                   meta := some (nr, st.maxDepth) }

/-- Embeds DuckDBSocialGraphAnalyzer.ingestEvent: the closed guard, the
single event ingestion, then the delta update of the root table when a
root is active and the table valid; a delta failure marks the table
invalid instead of failing the ingestion. -/
def anIngestEvent (st : AnalyzerState) (e : NostrEvent) :
    Except String AnalyzerState := do
  if st.closed then throw closedMsg
  let f ← ingestEvent st.follows e
  if st.rootPubkey.isSome && st.rootTableValid then
    match updateRootDistancesDelta f st.meta st.rootTable [e.pubkey] with
    | .ok (t, _) => return { st with follows := f, rootTable := t }
    | .error _ => return { st with follows := f, rootTableValid := false }
  else
    return { st with follows := f }

/-- Embeds DuckDBSocialGraphAnalyzer.ingestEvents: the closed guard,
batch ingestion, then the delta update over the set of event authors. -/
def anIngestEvents (st : AnalyzerState) (events : List NostrEvent) :
    Except String AnalyzerState := do
  if st.closed then throw closedMsg
  let f ← ingestEvents st.follows events
  if st.rootPubkey.isSome && st.rootTableValid then
    match updateRootDistancesDelta f st.meta st.rootTable
        (dedupFirst (events.map (·.pubkey))) with
    | .ok (t, _) => return { st with follows := f, rootTable := t }
    | .error _ => return { st with follows := f, rootTableValid := false }
  else
    return { st with follows := f }

/-- Embeds getShortestPath: the closed guard, then the path search with
the analyzer depth. -/
def anGetShortestPath (st : AnalyzerState) (fromP toP : String) :
    Except String (Option SocialPath) := do
  if st.closed then throw closedMsg
  findShortestPath st.follows fromP toP st.maxDepth

/-- Embeds getShortestDistance: the closed guard, normalization of the
source, the root fast path with lazy rebuild when the table is invalid,
and the bidirectional search otherwise.  The possibly rebuilt state is
returned with the answer. -/
def anGetShortestDistance (st : AnalyzerState) (fromP toP : String) :
    Except String (Option Nat × AnalyzerState) := do
  if st.closed then throw closedMsg
  let nf ← normalizePubkey fromP
  match st.rootPubkey with
  | some r =>
    if nf == r then do
      let st' ← if st.rootTableValid then pure st
                else do
                  let b ← anBuild st r
                  pure { b with rootTableValid := true }
      let d ← getDistanceFromRoot st'.rootTable toP
      return (d, st')
    else do
      let d ← findShortestDistance st.follows fromP toP st.maxDepth false
      return (d, st)
  | none => do
    let d ← findShortestDistance st.follows fromP toP st.maxDepth false
    return (d, st)

/-- The root-table variant of users within distance: rows with positive
distance at most the bound. -/
def getUsersWithinDistanceFromRoot (table : List (PubKey × Nat))
    (distance : Int) : List PubKey :=
  (table.filter fun e => 0 < e.2 && (e.2 : Int) ≤ distance).map (·.1)

/-- Embeds getUsersWithinDistance of the analyzer: the closed guard,
normalization, the root fast path with lazy rebuild, and the recursive
query otherwise. -/
def anGetUsersWithinDistance (st : AnalyzerState) (fromP : String)
    (distance : Int) : Except String (Option (List PubKey) × AnalyzerState) := do
  if st.closed then throw closedMsg
  let nf ← normalizePubkey fromP
  match st.rootPubkey with
  | some r =>
    if nf == r then do
      let st' ← if st.rootTableValid then pure st
                else do
                  let b ← anBuild st r
                  pure { b with rootTableValid := true }
      return (some (getUsersWithinDistanceFromRoot st'.rootTable distance), st')
    else do
      let u ← getUsersWithinDistance st.follows fromP distance
      return (u, st)
  | none => do
    let u ← getUsersWithinDistance st.follows fromP distance
    return (u, st)

/-- Embeds isDirectFollow of the analyzer. -/
def anIsDirectFollow (st : AnalyzerState) (a b : String) :
    Except String Bool := do
  if st.closed then throw closedMsg
  isDirectFollow st.follows a b

/-- Embeds areMutualFollows of the analyzer. -/
def anAreMutualFollows (st : AnalyzerState) (a b : String) :
    Except String Bool := do
  if st.closed then throw closedMsg
  areMutualFollows st.follows a b

/-- Embeds getPubkeyDegree of the analyzer. -/
def anGetPubkeyDegree (st : AnalyzerState) (p : String) :
    Except String (Nat × Nat) := do
  if st.closed then throw closedMsg
  getPubkeyDegree st.follows p

/-- Embeds setRootPubkey: the closed guard, normalization, reuse of an
existing table when the stored metadata matches the normalized root and
the current depth, and a fresh build otherwise. -/
def anSetRootPubkey (st : AnalyzerState) (p : String) :
    Except String AnalyzerState := do
  if st.closed then throw closedMsg
  let nr ← normalizePubkey p
  if st.meta == some (nr, st.maxDepth) && st.rootTableBuilt then
    return { st with rootPubkey := some nr, rootTableValid := true }
  else do
    let b ← anBuild st nr
    return { b with rootPubkey := some nr, rootTableValid := true }

/-- Embeds close: an early return when already closed, otherwise the
checkpoint (outside the model) and the closed flag. -/
def anClose (st : AnalyzerState) : AnalyzerState :=
  if st.closed then st else { st with closed := true }

/-- Embeds isClosed, which has no guard. -/
def anIsClosed (st : AnalyzerState) : Bool := st.closed

/-- Projection of a path-tracking row to its node and depth. -/
def stripRow (r : Row) : PubKey × Nat := (r.1, r.2.1)

/-! ## Specification-side notions

The following definitions express the properties the claims talk about
independently of the search implementations: bounded reachability along a
successor function, minimal distances, and the per-author selection rule
of the ingestion specification. -/

/-- Reachability in at most n steps along a successor function. -/
def reachLe (next : PubKey → List PubKey) : Nat → PubKey → PubKey → Bool
  | 0, a, b => a == b
  | n + 1, a, b => a == b || (next a).any fun c => reachLe next n c b

/-- The node b is at minimal distance d from a: reachable in d steps and
in no fewer. -/
def minReach (next : PubKey → List PubKey) (a b : PubKey) (d : Nat) : Prop :=
  reachLe next d a b = true ∧ ∀ j, reachLe next j a b = true → d ≤ j

/-- The kind-3 events of one author, in input order. -/
def authorEvents (a : PubKey) (events : List NostrEvent) : List NostrEvent :=
  events.filter (·.pubkey == a)

/-- The running first-maximum by created_at: the accumulator is replaced
only by a strictly greater timestamp, so the first event achieving the
maximum wins. -/
def firstMaxFold (init : Option NostrEvent) (l : List NostrEvent) :
    Option NostrEvent :=
  l.foldl (fun cur x =>
    match cur with
    | none => some x
    | some c => if x.created_at > c.created_at then some x else some c) init

/-- The out-edge rows of one follower in the stored table. -/
def outFollows (g : FollowsTable) (p : PubKey) : List Follow :=
  g.filter (·.follower == p)

/-- First-occurrence deduplication of follow rows keyed by the pair of
follower and followed, against a seen set, mirroring the seenKeys set of
processEventBatch. -/
def dedupFollowsAux (seen : List (PubKey × PubKey)) : List Follow → List Follow
  | [] => []
  | f :: fs =>
    if seen.contains (f.follower, f.followed) then dedupFollowsAux seen fs
    else f :: dedupFollowsAux ((f.follower, f.followed) :: seen) fs

/-- Per-event deduplication of parsed follow rows by the pair of keys,
first occurrence kept. -/
def dedupFollowRows (l : List Follow) : List Follow :=
  dedupFollowsAux [] l

/-- The authors a batch deletes: those whose parsed follow list is
nonempty. -/
def delOfBatch (evs : List NostrEvent) : List PubKey :=
  evs.filterMap fun e =>
    if (parseFollowsOf e).isEmpty then none else some e.pubkey

/-- The rows a batch inserts: the deduplicated parsed follows of each
event, in order. -/
def rowsOfBatch (evs : List NostrEvent) : List Follow :=
  evs.flatMap fun e => dedupFollowRows (parseFollowsOf e)

/-- Absence of pending delta work at a node: every out edge from a node
with a recorded distance within the depth bound points at a node whose
recorded distance is already at most one more. -/
def noPend (g : FollowsTable) (maxD : Nat) (T : List (PubKey × Nat))
    (x : PubKey) : Prop :=
  ∀ df, T.lookup x = some df → ∀ f ∈ g, f.follower = x → df + 1 ≤ maxD →
    ∃ dt, T.lookup f.followed = some dt ∧ dt ≤ df + 1

/-- The retained event of an author in one batch that actually touches
the stored edges: the entry of the latest-event map whose parsed follow
list is nonempty. -/
def effectiveEvent (events : List NostrEvent) (F : PubKey) : Option NostrEvent :=
  ((dedupLatest events).find? (·.pubkey == F)).bind fun e =>
    if (parseFollowsOf e).isEmpty then none else some e

/-- The last effective event of an author over a sequence of ingestion
calls. -/
def lastEffective (calls : List (List NostrEvent)) (F : PubKey) :
    Option NostrEvent :=
  calls.foldl (fun acc evs =>
    match effectiveEvent evs F with
    | some e => some e
    | none => acc) none

/-- A sequence of ingestion calls applied to a stored table. -/
def ingestCalls (g : FollowsTable) (calls : List (List NostrEvent)) :
    Except String FollowsTable :=
  calls.foldlM ingestEvents g

/-! ## Concrete identifiers for witnesses -/

/-- A 64 character pubkey made of one repeated hex digit. -/
def repKey (c : Char) : String := ⟨List.replicate 64 c⟩

def pk0 : String := repKey '0'
def pk1 : String := repKey '1'
def pk2 : String := repKey '2'
def pk3 : String := repKey '3'
def pk4 : String := repKey '4'
def pk5 : String := repKey '5'
def pk6 : String := repKey '6'
def pk7 : String := repKey '7'
def pk8 : String := repKey '8'
def pk9 : String := repKey '9'
def pka : String := repKey 'a'
def pkb : String := repKey 'b'
def pkc : String := repKey 'c'
def pkd : String := repKey 'd'

/-- Builds a kind-3 event from an author, timestamp and followed keys. -/
def mkEvent (author : PubKey) (ts : Nat) (targets : List PubKey) : NostrEvent :=
  ⟨author, ts, 3, targets.map fun t => ["p", t]⟩

/-- An upper-case spelling of the key pka. -/
def pkUA : String := repKey 'A'

/-- Decidable equality of Except values, for evaluating results of the
fallible operations on concrete inputs. -/
instance instDecEqExcept {e a : Type} [DecidableEq e] [DecidableEq a] :
    DecidableEq (Except e a) := fun x y =>
  match x, y with
  | .ok v, .ok w =>
    if h : v = w then isTrue (by rw [h]) else isFalse (by simp [h])
  | .error v, .error w =>
    if h : v = w then isTrue (by rw [h]) else isFalse (by simp [h])
  | .ok _, .error _ => isFalse (by simp)
  | .error _, .ok _ => isFalse (by simp)

/-! ## Concrete states for counterexamples and witnesses -/

/-- A three edge chain a to b to c to d. -/
def gChain : FollowsTable := [⟨pka, pkb, 1⟩, ⟨pkb, pkc, 1⟩, ⟨pkc, pkd, 1⟩]

/-- A three cycle a to b to c to a together with a self edge on a. -/
def gCycle : FollowsTable :=
  [⟨pka, pkb, 1⟩, ⟨pkb, pkc, 1⟩, ⟨pkc, pka, 1⟩, ⟨pka, pka, 1⟩]

/-- An analyzer holding the single edge a to b with a valid root index
built from a at depth 6, the delta update scenario start state. -/
def stDelta : AnalyzerState :=
  { follows := [⟨pka, pkb, 1⟩]
    rootTable := [(pka, 0), (pkb, 1)]
    rootTableBuilt := true
    meta := some (pka, 6)
    rootPubkey := some pka
    rootTableValid := true
    closed := false
    maxDepth := 6 }

/-- A closed analyzer over an empty graph. -/
def stClosed : AnalyzerState :=
  { follows := []
    rootTable := []
    rootTableBuilt := false
    meta := none
    rootPubkey := none
    rootTableValid := false
    closed := true
    maxDepth := 6 }

/-- The edges of the delta cascade scenario: a chain pk0 to pk1 to pk2 to
pk3 to pk4 to pk5 to pk6, with side parents pk7, pk8, pk9, pka feeding
pk1 through pk4. -/
def gCascade : FollowsTable :=
  [⟨pk0, pk1, 1⟩, ⟨pk7, pk1, 1⟩,
   ⟨pk1, pk2, 1⟩, ⟨pk8, pk2, 1⟩,
   ⟨pk2, pk3, 1⟩, ⟨pk9, pk3, 1⟩,
   ⟨pk3, pk4, 1⟩, ⟨pka, pk4, 1⟩,
   ⟨pk4, pk5, 1⟩,
   ⟨pk5, pk6, 1⟩]

/-- An analyzer over the cascade graph with root pk0 at depth 3 and a
root table in which pk5 carries a stale large distance and the side
parents carry distance zero entries. -/
def stCascade : AnalyzerState :=
  { follows := gCascade
    rootTable := [(pk0, 0), (pk5, 9), (pk7, 0), (pk8, 0), (pk9, 0), (pka, 0)]
    rootTableBuilt := true
    meta := some (pk0, 3)
    rootPubkey := some pk0
    rootTableValid := true
    closed := false
    maxDepth := 6 }

/-- The batch re-ingesting the existing lists of pk0 and pk5. -/
def evCascade : List NostrEvent := [mkEvent pk0 100 [pk1], mkEvent pk5 100 [pk6]]

/-- A minimal open analyzer state with no root configured, and the
state after ingesting the single follow a to b into it. -/
def stW0 : AnalyzerState :=
  { follows := [], rootTable := [], rootTableBuilt := false, meta := none,
    rootPubkey := none, rootTableValid := false, closed := false, maxDepth := 2 }

def stW1 : AnalyzerState :=
  { follows := [⟨pka, pkb, 100⟩], rootTable := [], rootTableBuilt := false,
    meta := none, rootPubkey := none, rootTableValid := false, closed := false,
    maxDepth := 2 }

/-! ## Basic lemmas -/

theorem throwEq (m : String) : (throw m : Except String α) = .error m := rfl

theorem errBind (m : String) (f : α → Except String β) :
    ((Except.error m : Except String α) >>= f) = Except.error m := rfl

theorem okBind (v : α) (f : α → Except String β) :
    ((Except.ok v : Except String α) >>= f) = f v := rfl

theorem pureEq (v : α) : (pure v : Except String α) = .ok v := rfl

theorem charOfNatToNat (n : Nat) (h : n < 55296) : (Char.ofNat n).toNat = n := by
  unfold Char.ofNat
  rw [dif_pos (Or.inl h)]
  rfl

theorem isHexDigitChar_toNat {c : Char} (h : isHexDigitChar c = true) :
    (48 ≤ c.toNat ∧ c.toNat ≤ 57) ∨ (97 ≤ c.toNat ∧ c.toNat ≤ 102) ∨
    (65 ≤ c.toNat ∧ c.toNat ≤ 70) := by
  simp [isHexDigitChar] at h
  omega

theorem lowerChar_hex {c : Char} (h : isHexDigitChar c = true) :
    isHexDigitChar (lowerChar c) = true ∧ lowerChar (lowerChar c) = lowerChar c := by
  have hr := isHexDigitChar_toNat h
  by_cases hu : 65 ≤ c.toNat ∧ c.toNat ≤ 90
  · have hb : c.toNat + 32 < 55296 := by omega
    have ht := charOfNatToNat (c.toNat + 32) hb
    have h1 : lowerChar c = Char.ofNat (c.toNat + 32) := by
      simp [lowerChar, hu.1, hu.2]
    have h2 : lowerChar (Char.ofNat (c.toNat + 32)) = Char.ofNat (c.toNat + 32) := by
      simp [lowerChar, ht]
      omega
    constructor
    · rw [h1]
      simp [isHexDigitChar, ht]
      omega
    · rw [h1, h2]
  · have h1 : lowerChar c = c := by
      simp only [lowerChar, Bool.and_eq_true, decide_eq_true_eq, ite_eq_right_iff, and_imp]
      intro a b
      exact absurd ⟨a, b⟩ hu
    rw [h1, h1]
    exact ⟨h, rfl⟩

theorem jsToLower_hexKey {s : String} (h : isHexKey s = true) :
    isHexKey (jsToLower s) = true ∧ jsToLower (jsToLower s) = jsToLower s := by
  simp only [isHexKey, Bool.and_eq_true, beq_iff_eq, List.all_eq_true] at h
  obtain ⟨hlen, hall⟩ := h
  constructor
  · simp only [isHexKey, Bool.and_eq_true, beq_iff_eq, List.all_eq_true]
    constructor
    · have h1 : (jsToLower s).length = (s.data.map lowerChar).length := rfl
      have h2 : s.length = s.data.length := rfl
      rw [h1, List.length_map]
      rw [h2] at hlen
      exact hlen
    · intro c hc
      simp only [jsToLower] at hc
      obtain ⟨d, hd, rfl⟩ := List.mem_map.mp hc
      exact (lowerChar_hex (hall d hd)).1
  · simp only [jsToLower, List.map_map]
    congr 1
    apply List.map_congr_left
    intro d hd
    exact (lowerChar_hex (hall d hd)).2

theorem normalizeHex {s : String} (h : isHexKey s = true) :
    normalizePubkey s = .ok (jsToLower s) ∧
    normalizePubkey (jsToLower s) = .ok (jsToLower s) := by
  refine ⟨by simp [normalizePubkey, h], ?_⟩
  simp [normalizePubkey, (jsToLower_hexKey h).1, (jsToLower_hexKey h).2]

/-! ## Reachability lemmas -/

theorem reachLe_refl (next : PubKey → List PubKey) (n : Nat) (a : PubKey) :
    reachLe next n a a = true := by
  cases n <;> simp [reachLe]

theorem reachLe_succ_iff (next : PubKey → List PubKey) (n : Nat) (a b : PubKey) :
    reachLe next (n + 1) a b = true ↔
      a = b ∨ ∃ c ∈ next a, reachLe next n c b = true := by
  simp [reachLe, List.any_eq_true, beq_iff_eq]

theorem reachLe_zero_iff (next : PubKey → List PubKey) (a b : PubKey) :
    reachLe next 0 a b = true ↔ a = b := by
  simp [reachLe, beq_iff_eq]

theorem reachLe_succ_of (next : PubKey → List PubKey) (n : Nat) (a b : PubKey)
    (h : reachLe next n a b = true) : reachLe next (n + 1) a b = true := by
  induction n generalizing a with
  | zero =>
    rw [reachLe_zero_iff] at h
    rw [reachLe_succ_iff]
    exact Or.inl h
  | succ n ih =>
    rw [reachLe_succ_iff] at h
    rw [reachLe_succ_iff]
    rcases h with h | ⟨c, hc, hr⟩
    · exact Or.inl h
    · exact Or.inr ⟨c, hc, ih c hr⟩

theorem reachLe_mono (next : PubKey → List PubKey) {n m : Nat} (a b : PubKey)
    (hnm : n ≤ m) (h : reachLe next n a b = true) : reachLe next m a b = true := by
  induction m with
  | zero =>
    have hn : n = 0 := by omega
    subst hn
    exact h
  | succ m ih =>
    rcases Nat.lt_or_ge n (m + 1) with hlt | hge
    · exact reachLe_succ_of next m a b (ih (by omega))
    · have hn : n = m + 1 := by omega
      subst hn
      exact h

theorem reachLe_snoc (next : PubKey → List PubKey) (n : Nat) (a b : PubKey) :
    reachLe next (n + 1) a b = true ↔
      a = b ∨ ∃ c, reachLe next n a c = true ∧ b ∈ next c := by
  induction n generalizing a with
  | zero =>
    rw [reachLe_succ_iff]
    constructor
    · rintro (h | ⟨c, hc, hr⟩)
      · exact Or.inl h
      · rw [reachLe_zero_iff] at hr
        subst hr
        exact Or.inr ⟨a, by rw [reachLe_zero_iff], hc⟩
    · rintro (h | ⟨c, hc, hm⟩)
      · exact Or.inl h
      · rw [reachLe_zero_iff] at hc
        subst hc
        exact Or.inr ⟨b, hm, by rw [reachLe_zero_iff]⟩
  | succ n ih =>
    rw [reachLe_succ_iff]
    constructor
    · rintro (h | ⟨x, hx, hr⟩)
      · exact Or.inl h
      · rcases (ih x).mp hr with h | ⟨c, hc, hbm⟩
        · subst h
          exact Or.inr ⟨a, reachLe_refl next (n + 1) a, hx⟩
        · refine Or.inr ⟨c, ?_, hbm⟩
          rw [reachLe_succ_iff]
          exact Or.inr ⟨x, hx, hc⟩
    · rintro (h | ⟨c, hc, hbm⟩)
      · exact Or.inl h
      · rw [reachLe_succ_iff] at hc
        rcases hc with h | ⟨x, hx, hr⟩
        · subst h
          exact Or.inr ⟨b, hbm, reachLe_refl next (n + 1) b⟩
        · exact Or.inr ⟨x, hx, (ih x).mpr (Or.inr ⟨c, hr, hbm⟩)⟩

theorem reachLe_compose (next : PubKey → List PubKey) {i j : Nat} {a b c : PubKey}
    (h1 : reachLe next i a b = true) (h2 : reachLe next j b c = true) :
    reachLe next (i + j) a c = true := by
  induction i generalizing a with
  | zero =>
    rw [reachLe_zero_iff] at h1
    subst h1
    simpa using h2
  | succ i ih =>
    rw [reachLe_succ_iff] at h1
    rcases h1 with h | ⟨x, hx, hr⟩
    · subst h
      exact reachLe_mono next _ c (Nat.le_add_left j (i + 1)) h2
    · have := ih hr
      have goal : reachLe next (i + j + 1) a c = true := by
        rw [reachLe_succ_iff]
        exact Or.inr ⟨x, hx, this⟩
      have heq : i + 1 + j = i + j + 1 := by omega
      rw [heq]
      exact goal

theorem reachLe_split (next : PubKey → List PubKey) {i j : Nat} {a c : PubKey}
    (h : reachLe next (i + j) a c = true) :
    ∃ b, reachLe next i a b = true ∧ reachLe next j b c = true := by
  induction i generalizing a with
  | zero =>
    exact ⟨a, by rw [reachLe_zero_iff], by simpa using h⟩
  | succ i ih =>
    have heq : i + 1 + j = (i + j) + 1 := by omega
    rw [heq, reachLe_succ_iff] at h
    rcases h with h | ⟨x, hx, hr⟩
    · subst h
      exact ⟨a, reachLe_refl next (i + 1) a, reachLe_refl next j a⟩
    · obtain ⟨b, hb1, hb2⟩ := ih hr
      refine ⟨b, ?_, hb2⟩
      rw [reachLe_succ_iff]
      exact Or.inr ⟨x, hx, hb1⟩

theorem minReach_exists (next : PubKey → List PubKey) {j : Nat} {a b : PubKey}
    (h : reachLe next j a b = true) :
    ∃ d, minReach next a b d ∧ d ≤ j := by
  have hex : ∃ n, reachLe next n a b = true := ⟨j, h⟩
  refine ⟨Nat.find hex, ⟨Nat.find_spec hex, ?_⟩, Nat.find_min' hex h⟩
  intro k hk
  exact Nat.find_min' hex hk

theorem minReach_unique (next : PubKey → List PubKey) {a b : PubKey} {d e : Nat}
    (h1 : minReach next a b d) (h2 : minReach next a b e) : d = e :=
  Nat.le_antisymm (h1.2 e h2.1) (h2.2 d h1.1)

theorem minReach_self (next : PubKey → List PubKey) (a : PubKey) :
    minReach next a a 0 :=
  ⟨by rw [reachLe_zero_iff], fun j _ => Nat.zero_le j⟩

theorem minReach_zero_iff (next : PubKey → List PubKey) (a b : PubKey) :
    minReach next a b 0 ↔ a = b := by
  constructor
  · intro h
    have h0 := h.1
    rw [reachLe_zero_iff next a b] at h0
    exact h0
  · rintro rfl
    exact minReach_self next a

theorem minReach_pred (next : PubKey → List PubKey) {a b : PubKey} {k : Nat}
    (h : minReach next a b (k + 1)) :
    ∃ c, b ∈ next c ∧ minReach next a c k := by
  have h1 := h.1
  rw [reachLe_snoc] at h1
  rcases h1 with heq | ⟨c, hc, hbm⟩
  · subst heq
    have := h.2 0 (reachLe_refl next 0 a)
    omega
  · obtain ⟨d, hd, hdk⟩ := minReach_exists next hc
    have hk : d = k := by
      have hle : k + 1 ≤ d + 1 := by
        apply h.2
        rw [reachLe_snoc]
        exact Or.inr ⟨c, hd.1, hbm⟩
      omega
    subst hk
    exact ⟨c, hbm, hd⟩

theorem minReach_gap (next : PubKey → List PubKey) (s : PubKey) (depth : Nat)
    (hnone : ∀ p, ¬ minReach next s p depth) :
    ∀ q, depth ≤ q → ∀ p, ¬ minReach next s p q := by
  intro q
  induction q with
  | zero =>
    intro hq p
    have : depth = 0 := by omega
    subst this
    exact hnone p
  | succ q ih =>
    intro hq p hmin
    rcases Nat.lt_or_ge depth (q + 1) with hlt | hge
    · obtain ⟨c, _, hpc⟩ := minReach_pred next hmin
      exact ih (by omega) c hpc
    · have : depth = q + 1 := by omega
      subst this
      exact hnone p hmin


/-! ## List and lookup lemmas -/

theorem mem_dedupFirstAux {x : PubKey} :
    ∀ (ks l : List PubKey), x ∈ dedupFirstAux ks l ↔ x ∈ l ∧ x ∉ ks := by
  intro ks l
  induction l generalizing ks with
  | nil => simp [dedupFirstAux]
  | cons m ms ih =>
    by_cases hm : ks.contains m
    · rw [dedupFirstAux, if_pos hm, ih ks]
      have hmem : m ∈ ks := by simpa using hm
      constructor
      · rintro ⟨h1, h2⟩
        exact ⟨List.mem_cons_of_mem m h1, h2⟩
      · rintro ⟨h1, h2⟩
        rcases List.mem_cons.mp h1 with rfl | h1
        · exact absurd hmem h2
        · exact ⟨h1, h2⟩
    · rw [dedupFirstAux, if_neg hm]
      have hnmem : m ∉ ks := by simpa using hm
      constructor
      · intro h
        rcases List.mem_cons.mp h with rfl | h
        · exact ⟨List.mem_cons_self _ _, hnmem⟩
        · rw [ih (m :: ks)] at h
          refine ⟨List.mem_cons_of_mem m h.1, fun hx => h.2 (List.mem_cons_of_mem m hx)⟩
      · rintro ⟨h1, h2⟩
        rcases List.mem_cons.mp h1 with rfl | h1
        · exact List.mem_cons_self _ _
        · by_cases hxm : x = m
          · subst hxm
            exact List.mem_cons_self _ _
          · refine List.mem_cons_of_mem m ((ih (m :: ks)).mpr ⟨h1, fun hx => ?_⟩)
            rcases List.mem_cons.mp hx with h | h
            · exact hxm h
            · exact h2 h

theorem nodup_dedupFirstAux :
    ∀ (ks l : List PubKey), (dedupFirstAux ks l).Nodup := by
  intro ks l
  induction l generalizing ks with
  | nil => simp [dedupFirstAux]
  | cons m ms ih =>
    by_cases hm : ks.contains m
    · rw [dedupFirstAux, if_pos hm]
      exact ih ks
    · rw [dedupFirstAux, if_neg hm]
      refine List.nodup_cons.mpr ⟨fun hmem => ?_, ih (m :: ks)⟩
      have := (mem_dedupFirstAux (m :: ks) ms).mp hmem
      exact this.2 (List.mem_cons_self _ _)

theorem lookup_eq_some_iff {l : List (PubKey × Nat)}
    (hnd : (l.map Prod.fst).Nodup) (p : PubKey) (q : Nat) :
    l.lookup p = some q ↔ (p, q) ∈ l := by
  induction l with
  | nil => simp [List.lookup]
  | cons r rs ih =>
    obtain ⟨k, v⟩ := r
    simp only [List.map_cons, List.nodup_cons] at hnd
    by_cases hk : p = k
    · subst hk
      rw [List.lookup]
      simp only [beq_self_eq_true]
      constructor
      · intro h
        rw [Option.some_inj] at h
        subst h
        exact List.mem_cons_self _ _
      · intro h
        rcases List.mem_cons.mp h with h | h
        · rw [Prod.mk.injEq] at h
          rw [h.2]
        · exact absurd (List.mem_map_of_mem Prod.fst h) hnd.1
    · have hbe : (p == k) = false := by
        simpa using hk
      rw [List.lookup]
      simp only [hbe]
      rw [ih hnd.2]
      constructor
      · exact fun h => List.mem_cons_of_mem _ h
      · intro h
        rcases List.mem_cons.mp h with h | h
        · rw [Prod.mk.injEq] at h
          exact absurd h.1 hk
        · exact h

theorem lookup_eq_none_iff {l : List (PubKey × Nat)} (p : PubKey) :
    l.lookup p = none ↔ ∀ q, (p, q) ∉ l := by
  induction l with
  | nil => simp [List.lookup]
  | cons r rs ih =>
    obtain ⟨k, v⟩ := r
    by_cases hk : p = k
    · subst hk
      rw [List.lookup]
      simp only [beq_self_eq_true]
      constructor
      · intro h
        simp at h
      · intro h
        exact (h v (List.mem_cons_self _ _)).elim
    · have hbe : (p == k) = false := by
        simpa using hk
      rw [List.lookup]
      simp only [hbe]
      rw [ih]
      constructor
      · intro h q hq
        rcases List.mem_cons.mp hq with hh | hh
        · rw [Prod.mk.injEq] at hh
          exact hk hh.1
        · exact h q hh
      · intro h q hq
        exact h q (List.mem_cons_of_mem _ hq)

/-! ## BFS correctness -/

theorem bfsAux_mem (next : PubKey → List PubKey) (s : PubKey) :
    ∀ (fuel : Nat) (table : List (PubKey × Nat)) (frontier : List PubKey)
      (depth : Nat),
    (∀ p q, (p, q) ∈ table ↔ minReach next s p q ∧ q ≤ depth) →
    (∀ p, p ∈ frontier ↔ minReach next s p depth) →
    ((table.map Prod.fst).Nodup) →
    (∀ p q, ((p, q) ∈ bfsAux next fuel table frontier depth ↔
       minReach next s p q ∧ q ≤ depth + fuel)) ∧
    ((bfsAux next fuel table frontier depth).map Prod.fst).Nodup := by
  intro fuel
  induction fuel with
  | zero =>
    intro table frontier depth htab hfr hnd
    rw [bfsAux]
    exact ⟨fun p q => by rw [htab p q, Nat.add_zero], hnd⟩
  | succ fuel ih =>
    intro table frontier depth htab hfr hnd
    by_cases hemp : frontier.isEmpty
    · rw [bfsAux, if_pos hemp]
      have hfre : frontier = [] := List.isEmpty_iff.mp hemp
      subst hfre
      have hnone : ∀ p, ¬ minReach next s p depth := by
        intro p hp
        exact absurd ((hfr p).mpr hp) (List.not_mem_nil p)
      refine ⟨fun p q => ?_, hnd⟩
      rw [htab p q]
      constructor
      · rintro ⟨h1, h2⟩
        exact ⟨h1, by omega⟩
      · rintro ⟨h1, h2⟩
        refine ⟨h1, ?_⟩
        by_contra hgt
        exact minReach_gap next s depth hnone q (by omega) p h1
    · rw [bfsAux, if_neg hemp]
      set cand := dedupFirstAux (table.map Prod.fst) (frontier.flatMap next) with hcdef
      have hcand : ∀ p, p ∈ cand ↔ minReach next s p (depth + 1) := by
        intro p
        rw [hcdef, mem_dedupFirstAux]
        constructor
        · rintro ⟨hfm, hnk⟩
          obtain ⟨f, hf, hp⟩ := List.mem_flatMap.mp hfm
          have hmf : minReach next s f depth := (hfr f).mp hf
          have hreach : reachLe next (depth + 1) s p = true := by
            rw [reachLe_snoc]
            exact Or.inr ⟨f, hmf.1, hp⟩
          obtain ⟨d, hd, hdle⟩ := minReach_exists next hreach
          rcases Nat.lt_or_ge d (depth + 1) with hlt | hge
          · exfalso
            have : (p, d) ∈ table := (htab p d).mpr ⟨hd, by omega⟩
            exact hnk (List.mem_map_of_mem Prod.fst this)
          · have : d = depth + 1 := by omega
            subst this
            exact hd
        · intro hmin
          obtain ⟨c, hpc, hcd⟩ := minReach_pred next hmin
          refine ⟨List.mem_flatMap.mpr ⟨c, (hfr c).mpr hcd, hpc⟩, fun hk => ?_⟩
          obtain ⟨x, hx, hfx⟩ := List.mem_map.mp hk
          have hxp : x = (p, x.2) := by
            rw [← hfx]
          rw [hxp] at hx
          have hmm := (htab p x.2).mp hx
          have heq := minReach_unique next hmm.1 hmin
          omega
      have htab2 : ∀ p q,
          (p, q) ∈ table ++ cand.map (fun c => (c, depth + 1)) ↔
          minReach next s p q ∧ q ≤ depth + 1 := by
        intro p q
        rw [List.mem_append]
        constructor
        · rintro (h | h)
          · have := (htab p q).mp h
            exact ⟨this.1, by omega⟩
          · obtain ⟨c, hc, hcq⟩ := List.mem_map.mp h
            rw [Prod.mk.injEq] at hcq
            obtain ⟨rfl, rfl⟩ := hcq
            exact ⟨(hcand c).mp hc, le_refl _⟩
        · rintro ⟨h1, h2⟩
          rcases Nat.lt_or_ge q (depth + 1) with hlt | hge
          · exact Or.inl ((htab p q).mpr ⟨h1, by omega⟩)
          · have hq : q = depth + 1 := by omega
            subst hq
            exact Or.inr (List.mem_map_of_mem _ ((hcand p).mpr h1))
      have hnd2 : ((table ++ cand.map (fun c => (c, depth + 1))).map Prod.fst).Nodup := by
        rw [List.map_append, List.map_map]
        have hmapid : (Prod.fst ∘ fun c : PubKey => (c, depth + 1)) = (id : PubKey → PubKey) := by
          funext c
          rfl
        rw [hmapid, List.map_id]
        rw [List.nodup_append]
        refine ⟨hnd, nodup_dedupFirstAux _ _, fun x hx hxc => ?_⟩
        exact ((mem_dedupFirstAux _ _).mp hxc).2 hx
      have := ih (table ++ cand.map (fun c => (c, depth + 1))) cand (depth + 1)
        htab2 hcand hnd2
      refine ⟨fun p q => ?_, this.2⟩
      rw [(this.1 p q)]
      constructor
      · rintro ⟨h1, h2⟩
        exact ⟨h1, by omega⟩
      · rintro ⟨h1, h2⟩
        exact ⟨h1, by omega⟩


theorem bfsFrom_facts (next : PubKey → List PubKey) (s : PubKey) (fuel : Nat) :
    (∀ p q, ((p, q) ∈ bfsFrom next fuel s ↔ minReach next s p q ∧ q ≤ fuel)) ∧
    ((bfsFrom next fuel s).map Prod.fst).Nodup := by
  have htab : ∀ p q, (p, q) ∈ [(s, 0)] ↔ minReach next s p q ∧ q ≤ 0 := by
    intro p q
    simp only [List.mem_singleton, Prod.mk.injEq]
    constructor
    · rintro ⟨rfl, rfl⟩
      exact ⟨minReach_self next _, le_refl _⟩
    · rintro ⟨h1, h2⟩
      have hq : q = 0 := by omega
      subst hq
      exact ⟨((minReach_zero_iff next s p).mp h1).symm, rfl⟩
  have hfr : ∀ p, p ∈ [s] ↔ minReach next s p 0 := by
    intro p
    simp only [List.mem_singleton]
    constructor
    · rintro rfl
      exact minReach_self next _
    · intro h
      exact ((minReach_zero_iff next s p).mp h).symm
  have := bfsAux_mem next s fuel [(s, 0)] [s] 0 htab hfr (by simp)
  refine ⟨fun p q => ?_, this.2⟩
  rw [bfsFrom, this.1 p q, Nat.zero_add]

theorem bfsFrom_lookup (next : PubKey → List PubKey) (s : PubKey) (fuel : Nat)
    (p : PubKey) (q : Nat) :
    (bfsFrom next fuel s).lookup p = some q ↔
      minReach next s p q ∧ q ≤ fuel := by
  rw [lookup_eq_some_iff (bfsFrom_facts next s fuel).2]
  exact (bfsFrom_facts next s fuel).1 p q

theorem bfsFrom_lookup_none (next : PubKey → List PubKey) (s : PubKey)
    (fuel : Nat) (p : PubKey) :
    (bfsFrom next fuel s).lookup p = none ↔
      ∀ q, ¬ (minReach next s p q ∧ q ≤ fuel) := by
  rw [lookup_eq_none_iff]
  constructor
  · intro h q hq
    exact h q ((bfsFrom_facts next s fuel).1 p q |>.mpr hq)
  · intro h q hq
    exact h q ((bfsFrom_facts next s fuel).1 p q |>.mp hq)


/-! ## Graph reversal and minimum lemmas -/

theorem mem_succs {g : FollowsTable} {a b : PubKey} :
    b ∈ succs g a ↔ ∃ f ∈ g, f.follower = a ∧ f.followed = b := by
  simp only [succs, List.mem_map, List.mem_filter, beq_iff_eq]
  constructor
  · rintro ⟨f, ⟨hf, hfa⟩, rfl⟩
    exact ⟨f, hf, hfa, rfl⟩
  · rintro ⟨f, hf, hfa, rfl⟩
    exact ⟨f, ⟨hf, hfa⟩, rfl⟩

theorem mem_preds {g : FollowsTable} {b c : PubKey} :
    c ∈ preds g b ↔ ∃ f ∈ g, f.follower = c ∧ f.followed = b := by
  simp only [preds, List.mem_map, List.mem_filter, beq_iff_eq]
  constructor
  · rintro ⟨f, ⟨hf, hfb⟩, rfl⟩
    exact ⟨f, hf, rfl, hfb⟩
  · rintro ⟨f, hf, rfl, hfb⟩
    exact ⟨f, ⟨hf, hfb⟩, rfl⟩

theorem mem_preds_iff_succs {g : FollowsTable} {b c : PubKey} :
    c ∈ preds g b ↔ b ∈ succs g c := by
  rw [mem_preds, mem_succs]

theorem reachLe_rev (g : FollowsTable) :
    ∀ (n : Nat) (a b : PubKey),
    reachLe (preds g) n b a = true ↔ reachLe (succs g) n a b = true := by
  intro n
  induction n with
  | zero =>
    intro a b
    rw [reachLe_zero_iff, reachLe_zero_iff]
    exact ⟨Eq.symm, Eq.symm⟩
  | succ n ih =>
    intro a b
    rw [reachLe_succ_iff, reachLe_snoc]
    constructor
    · rintro (h | ⟨c, hc, hr⟩)
      · exact Or.inl h.symm
      · exact Or.inr ⟨c, (ih a c).mp hr, mem_preds_iff_succs.mp hc⟩
    · rintro (h | ⟨c, hc, hm⟩)
      · exact Or.inl h.symm
      · exact Or.inr ⟨c, mem_preds_iff_succs.mpr hm, (ih a c).mpr hc⟩

theorem minReach_rev (g : FollowsTable) (a b : PubKey) (d : Nat) :
    minReach (preds g) b a d ↔ minReach (succs g) a b d := by
  unfold minReach
  constructor
  · rintro ⟨h1, h2⟩
    exact ⟨(reachLe_rev g d a b).mp h1, fun j hj => h2 j ((reachLe_rev g j a b).mpr hj)⟩
  · rintro ⟨h1, h2⟩
    exact ⟨(reachLe_rev g d a b).mpr h1, fun j hj => h2 j ((reachLe_rev g j a b).mp hj)⟩

theorem minFoldStep :
    (fun (b : Option Nat) (c : Nat) =>
      match b with
      | none => some c
      | some b => if c < b then some c else some b) = fun b c =>
        match b with
        | none => some c
        | some b => if c < b then some c else some b := rfl

theorem minNat?_go {m : Nat} :
    ∀ (l : List Nat) (b : Nat),
    List.foldl (fun (acc : Option Nat) (c : Nat) =>
      match acc with
      | none => some c
      | some b => if c < b then some c else some b) (some b) l = some m →
    (m = b ∨ m ∈ l) ∧ m ≤ b ∧ ∀ x ∈ l, m ≤ x := by
  intro l
  induction l with
  | nil =>
    intro b h
    simp only [List.foldl_nil, Option.some_inj] at h
    exact ⟨Or.inl h.symm, le_of_eq h.symm, by simp⟩
  | cons x xs ih =>
    intro b h
    simp only [List.foldl_cons] at h
    by_cases hx : x < b
    · rw [if_pos hx] at h
      obtain ⟨hm, hmx, hall⟩ := ih x h
      refine ⟨?_, ?_, ?_⟩
      · rcases hm with rfl | hm
        · exact Or.inr (List.mem_cons_self _ _)
        · exact Or.inr (List.mem_cons_of_mem _ hm)
      · omega
      · intro y hy
        rcases List.mem_cons.mp hy with rfl | hy
        · exact hmx
        · exact hall y hy
    · rw [if_neg hx] at h
      obtain ⟨hm, hmx, hall⟩ := ih b h
      refine ⟨?_, hmx, ?_⟩
      · rcases hm with rfl | hm
        · exact Or.inl rfl
        · exact Or.inr (List.mem_cons_of_mem _ hm)
      · intro y hy
        rcases List.mem_cons.mp hy with rfl | hy
        · omega
        · exact hall y hy

theorem minNat?_is_min {l : List Nat} {m : Nat} (h : minNat? l = some m) :
    m ∈ l ∧ ∀ x ∈ l, m ≤ x := by
  cases l with
  | nil => simp [minNat?] at h
  | cons x xs =>
    rw [minNat?, List.foldl_cons] at h
    obtain ⟨hm, hmx, hall⟩ := minNat?_go xs x h
    refine ⟨?_, ?_⟩
    · rcases hm with rfl | hm
      · exact List.mem_cons_self _ _
      · exact List.mem_cons_of_mem _ hm
    · intro y hy
      rcases List.mem_cons.mp hy with rfl | hy
      · exact hmx
      · exact hall y hy

theorem minFold_isSome :
    ∀ (l : List Nat) (b : Nat),
    ∃ m, List.foldl (fun (acc : Option Nat) (c : Nat) =>
      match acc with
      | none => some c
      | some b => if c < b then some c else some b) (some b) l = some m := by
  intro l
  induction l with
  | nil => exact fun b => ⟨b, rfl⟩
  | cons x xs ih =>
    intro b
    simp only [List.foldl_cons]
    by_cases hx : x < b
    · rw [if_pos hx]
      exact ih x
    · rw [if_neg hx]
      exact ih b

theorem minNat?_isSome {l : List Nat} (h : l ≠ []) :
    ∃ m, minNat? l = some m := by
  cases l with
  | nil => exact absurd rfl h
  | cons x xs => exact minFold_isSome xs x

theorem minNat?_spec {l : List Nat} {d : Nat} (hmem : d ∈ l)
    (hle : ∀ x ∈ l, d ≤ x) : minNat? l = some d := by
  have hne : l ≠ [] := by
    intro h
    subst h
    exact List.not_mem_nil d hmem
  obtain ⟨m, hm⟩ := minNat?_isSome hne
  obtain ⟨hmm, hmle⟩ := minNat?_is_min hm
  have : m = d := Nat.le_antisymm (hmle d hmem) (hle m hmm)
  rw [hm, this]


/-! ## Bidirectional search exactness -/

theorem searchMinTotal_eq (g : FollowsTable) (nf nt : PubKey) (s d : Nat)
    (h3 : 3 ≤ d) (hle : d ≤ 2 * s) (hmin : minReach (succs g) nf nt d) :
    searchMinTotal (bfsFrom (succs g) s nf) (bfsFrom (preds g) s nt) nf nt =
      some d := by
  rw [searchMinTotal]
  set fwd := bfsFrom (succs g) s nf with hfwd
  set bwd := bfsFrom (preds g) s nt with hbwd
  apply minNat?_spec
  · -- d occurs as the total of a midpoint of a shortest path
    have hsplit : d / 2 + (d - d / 2) = d := by omega
    have hreach : reachLe (succs g) (d / 2 + (d - d / 2)) nf nt = true := by
      rw [hsplit]
      exact hmin.1
    obtain ⟨mid, hm1, hm2⟩ := reachLe_split (succs g) hreach
    obtain ⟨a, ha, hale⟩ := minReach_exists (succs g) hm1
    have hm2r : reachLe (preds g) (d - d / 2) nt mid = true :=
      (reachLe_rev g _ mid nt).mpr hm2
    obtain ⟨b, hb, hble⟩ := minReach_exists (preds g) hm2r
    have hmid_ne_nf : mid ≠ nf := by
      rintro rfl
      have := hmin.2 (d - d / 2) hm2
      omega
    have hmid_ne_nt : mid ≠ nt := by
      rintro rfl
      have := hmin.2 (d / 2) hm1
      omega
    have hab_le : a + b ≤ d := by omega
    have hab_ge : d ≤ a + b := by
      have hcomp := reachLe_compose (succs g) ha.1 ((reachLe_rev g b mid nt).mp hb.1)
      exact hmin.2 (a + b) hcomp
    have hab : a + b = d := by omega
    have hmemf : (mid, a) ∈ fwd :=
      ((bfsFrom_facts (succs g) nf s).1 mid a).mpr ⟨ha, by omega⟩
    have hlookb : bwd.lookup mid = some b :=
      (bfsFrom_lookup (preds g) nt s mid b).mpr ⟨hb, by omega⟩
    refine List.mem_filterMap.mpr ⟨(mid, a), hmemf, ?_⟩
    rw [if_neg (by simp [hmid_ne_nf, hmid_ne_nt])]
    rw [hlookb]
    simp [hab]
  · -- every total is at least d
    intro x hx
    obtain ⟨r, hr, hrx⟩ := List.mem_filterMap.mp hx
    by_cases hne : (r.1 == nf || r.1 == nt) = true
    · rw [if_pos hne] at hrx
      cases hrx
    · rw [if_neg (by simpa using hne)] at hrx
      obtain ⟨db, hdb, hxval⟩ := Option.map_eq_some'.mp hrx
      have hf := ((bfsFrom_facts (succs g) nf s).1 r.1 r.2).mp (by
        have : (r.1, r.2) = r := rfl
        rw [this]
        exact hr)
      have hbk := (bfsFrom_lookup (preds g) nt s r.1 db).mp hdb
      have hcomp := reachLe_compose (succs g) hf.1.1
        ((reachLe_rev g db r.1 nt).mp hbk.1.1)
      have := hmin.2 (r.2 + db) hcomp
      omega


/-! ## Claim C2: root index agreement -/

theorem hasEdge_iff {g : FollowsTable} {a b : PubKey} :
    hasEdge g a b = true ↔ b ∈ succs g a := by
  rw [mem_succs]
  simp [hasEdge, List.any_eq_true, beq_iff_eq]

theorem hasTwoHop_iff {g : FollowsTable} {a b : PubKey} :
    hasTwoHop g a b = true ↔ ∃ c, c ∈ succs g a ∧ b ∈ succs g c := by
  simp only [hasTwoHop, List.any_eq_true, Bool.and_eq_true, beq_iff_eq]
  constructor
  · rintro ⟨f1, hf1, hfa, f2, hf2, hfc, hfb⟩
    exact ⟨f1.followed, mem_succs.mpr ⟨f1, hf1, hfa, rfl⟩,
           mem_succs.mpr ⟨f2, hf2, hfc, hfb⟩⟩
  · rintro ⟨c, hc, hb⟩
    obtain ⟨f1, hf1, hfa, hfc⟩ := mem_succs.mp hc
    obtain ⟨f2, hf2, hfc2, hfb⟩ := mem_succs.mp hb
    exact ⟨f1, hf1, hfa, f2, hf2, by rw [hfc, hfc2], hfb⟩

theorem pubkeyExists_of_succ {g : FollowsTable} {a c : PubKey}
    (h : c ∈ succs g a) : pubkeyExistsIn g a = true := by
  obtain ⟨f, hf, hfa, _⟩ := mem_succs.mp h
  simp only [pubkeyExistsIn, List.any_eq_true, Bool.or_eq_true, beq_iff_eq]
  exact ⟨f, hf, Or.inl hfa⟩

theorem findShortestDistance_shape (g : FollowsTable) (fromP toP : String)
    (m : Nat) {nf nt : PubKey}
    (hnf : normalizePubkey fromP = .ok nf) (hnt : normalizePubkey toP = .ok nt) :
    findShortestDistance g fromP toP m false =
      if nf = nt then .ok (some 0)
      else if pubkeyExistsIn g nf = false then .ok none
      else if hasEdge g nf nt = true then .ok (some 1)
      else if 2 ≤ m ∧ hasTwoHop g nf nt = true then .ok (some 2)
      else .ok (searchMinTotal (bfsFrom (succs g) (m / 2) nf)
        (bfsFrom (preds g) (m / 2) nt) nf nt) := by
  simp only [findShortestDistance, hnf, hnt, okBind, Except.bind, bind]
  by_cases h1 : nf = nt
  · simp [h1, pureEq]
  · simp only [h1, if_false]
    by_cases h2 : pubkeyExistsIn g nf = false
    · simp [h1, h2, pureEq]
    · by_cases h3 : hasEdge g nf nt = true
      · simp [h1, h2, h3, pureEq]
      · by_cases h4 : 2 ≤ m ∧ hasTwoHop g nf nt = true
        · simp [h1, h2, h3, h4, pureEq]
        · simp [h1, h2, h3, h4, pureEq]

/-- C2 (amended): after a successful root-distance build at max depth m,
every node in the index whose recorded distance d is within the coverage
of the bidirectional search, namely d at most 2 * (m / 2) or at most
min 2 m, gets the same non-null answer d from findShortestDistance.  For
even m (and m = 1) this covers every indexed node; for odd m at least 3
the nodes at exactly distance m are outside the coverage. -/
theorem root_index_agreement (g : FollowsTable) (root target : String)
    (m : Nat) (T : List (PubKey × Nat)) (d : Nat)
    (hbuild : buildRootDistancesTable g root m = .ok T)
    (htv : isHexKey target = true)
    (hlook : getDistanceFromRoot T target = .ok (some d))
    (hcov : d ≤ max (2 * (m / 2)) (min 2 m)) :
    findShortestDistance g root target m false = .ok (some d) := by
  -- extract the build
  by_cases hroot : isHexKey root = true
  case neg =>
    rw [buildRootDistancesTable] at hbuild
    simp [normalizePubkey, hroot, Except.bind, bind] at hbuild
  case pos =>
  rw [buildRootDistancesTable] at hbuild
  rw [show normalizePubkey root = .ok (jsToLower root) from (normalizeHex hroot).1,
    okBind] at hbuild
  rw [pureEq, Except.ok.injEq] at hbuild
  set nr := jsToLower root with hnr
  set nt := jsToLower target with hntd
  -- extract the lookup
  rw [getDistanceFromRoot,
    show normalizePubkey target = .ok (jsToLower target) from (normalizeHex htv).1,
    okBind, pureEq, Except.ok.injEq] at hlook
  rw [← hbuild] at hlook
  have hfacts := (bfsFrom_lookup (succs g) nr m nt d).mp hlook
  obtain ⟨hmin, hdm⟩ := hfacts
  rw [findShortestDistance_shape g root target m (normalizeHex hroot).1
    (normalizeHex htv).1]
  rcases Nat.eq_zero_or_pos d with hd0 | hdpos
  · -- d = 0: root and target normalize to the same key
    subst hd0
    have : nr = nt := (minReach_zero_iff (succs g) nr nt).mp hmin
    rw [if_pos this]
  · -- d is at least 1
    have hne : nr ≠ nt := by
      intro hEq
      have h0 : reachLe (succs g) 0 nr nt = true := by
        rw [reachLe_zero_iff]
        exact hEq
      have := hmin.2 0 h0
      omega
    rw [if_neg hne]
    -- the source has an out edge on any positive length path
    have hsrc : pubkeyExistsIn g nr = true := by
      obtain ⟨k, hk⟩ : ∃ k, d = k + 1 := ⟨d - 1, by omega⟩
      have h1 := hmin.1
      rw [hk, reachLe_succ_iff] at h1
      rcases h1 with h | ⟨c, hc, _⟩
      · exact absurd h hne
      · exact pubkeyExists_of_succ hc
    rw [if_neg (by rw [hsrc]; intro h; cases h)]
    rcases Nat.lt_or_ge d 2 with hd1 | hd2
    · -- d = 1: the direct edge is found
      have hd : d = 1 := by omega
      subst hd
      have h1 := hmin.1
      rw [reachLe_succ_iff] at h1
      rcases h1 with h | ⟨c, hc, hr⟩
      · exact absurd h hne
      · rw [reachLe_zero_iff] at hr
        subst hr
        rw [if_pos (hasEdge_iff.mpr hc)]
    · -- d at least 2: no direct edge
      have hnoedge : hasEdge g nr nt = true → False := by
        intro h
        have := hmin.2 1 (by
          rw [reachLe_succ_iff]
          exact Or.inr ⟨nt, hasEdge_iff.mp h, reachLe_refl _ 0 nt⟩)
        omega
      rw [if_neg (by simpa using hnoedge)]
      rcases Nat.lt_or_ge d 3 with hd2e | hd3
      · -- d = 2: the two hop check fires, and m is at least 2
        have hd : d = 2 := by omega
        subst hd
        have hm2 : 2 ≤ m := by omega
        have h1 := hmin.1
        rw [reachLe_succ_iff] at h1
        rcases h1 with h | ⟨c, hc, hr⟩
        · exact absurd h hne
        · rw [reachLe_succ_iff] at hr
          rcases hr with h | ⟨c2, hc2, hr2⟩
          · subst h
            exact absurd (hasEdge_iff.mpr hc) (by simpa using hnoedge)
          · rw [reachLe_zero_iff] at hr2
            subst hr2
            rw [if_pos ⟨hm2, hasTwoHop_iff.mpr ⟨c, hc, hc2⟩⟩]
      · -- d at least 3: the bidirectional search is exact
        have hnotwo : hasTwoHop g nr nt = true → False := by
          intro h
          obtain ⟨c, hc, hb⟩ := hasTwoHop_iff.mp h
          have : reachLe (succs g) 2 nr nt = true := by
            rw [reachLe_succ_iff]
            refine Or.inr ⟨c, hc, ?_⟩
            rw [reachLe_succ_iff]
            exact Or.inr ⟨nt, hb, reachLe_refl _ 0 nt⟩
          have := hmin.2 2 this
          omega
        rw [if_neg (by
          rintro ⟨_, h⟩
          exact hnotwo h)]
        have hcov2 : d ≤ 2 * (m / 2) := by
          rcases Nat.le_total (2 * (m / 2)) (min 2 m) with h | h <;> omega
        exact congrArg Except.ok
          (searchMinTotal_eq g nr nt (m / 2) d hd3 hcov2 hmin)



/-- Counterexample to C2 as stated: with odd max depth 3 over the chain
a to b to c to d, the build indexes d at distance 3, but the
bidirectional search bounded to floor(3 / 2) = 1 layer per side returns
none, so the claimed agreement for every reachable node and odd depth
fails. -/
theorem root_index_counterexample :
    buildRootDistancesTable gChain pka 3 =
      .ok [(pka, 0), (pkb, 1), (pkc, 2), (pkd, 3)] ∧
    getDistanceFromRoot [(pka, 0), (pkb, 1), (pkc, 2), (pkd, 3)] pkd =
      .ok (some 3) ∧
    findShortestDistance gChain pka pkd 3 false = .ok none := by
  refine ⟨by decide, by decide, by decide⟩

/-- Witness for the amended C2: at even depth 6 the chain endpoint at
distance 3 is found with the indexed distance. -/
theorem root_index_agreement_witness :
    findShortestDistance gChain pka pkd 6 false = .ok (some 3) :=
  root_index_agreement gChain pka pkd 6 [(pka, 0), (pkb, 1), (pkc, 2), (pkd, 3)]
    3 (by decide) (by decide) (by decide) (by decide)

/-! ## Claim C3: path and distance agreement -/

theorem contains_iff_mem (l : List PubKey) (x : PubKey) :
    l.contains x = true ↔ x ∈ l := by
  simp [List.contains]

theorem dedupFirstAux_congr (ks1 ks2 l : List PubKey)
    (h : ∀ x, x ∈ ks1 ↔ x ∈ ks2) :
    dedupFirstAux ks1 l = dedupFirstAux ks2 l := by
  induction l generalizing ks1 ks2 with
  | nil => rfl
  | cons m ms ih =>
    rw [dedupFirstAux, dedupFirstAux]
    by_cases hm : ks1.contains m
    · have hm2 : ks2.contains m = true := by
        rw [contains_iff_mem] at hm ⊢
        exact (h m).mp hm
      rw [if_pos hm, if_pos hm2]
      exact ih ks1 ks2 h
    · have hm2 : ¬ ks2.contains m = true := by
        rw [contains_iff_mem] at hm ⊢
        exact fun hx => hm ((h m).mpr hx)
      rw [if_neg hm, if_neg hm2]
      rw [ih (m :: ks1) (m :: ks2) (by
        intro x
        simp only [List.mem_cons]
        rw [h x])]

theorem dedupFirstAux_append (l1 l2 ks : List PubKey) :
    dedupFirstAux ks (l1 ++ l2) =
      dedupFirstAux ks l1 ++ dedupFirstAux (l1 ++ ks) l2 := by
  induction l1 generalizing ks with
  | nil =>
    simp [dedupFirstAux]
  | cons m ms ih =>
    rw [List.cons_append, dedupFirstAux, dedupFirstAux]
    by_cases hm : ks.contains m
    · rw [if_pos hm, if_pos hm, ih ks]
      congr 1
      apply dedupFirstAux_congr
      intro x
      have hmk : m ∈ ks := (contains_iff_mem ks m).mp hm
      simp only [List.mem_append, List.mem_cons]
      constructor
      · rintro (h | h)
        · exact Or.inl (Or.inr h)
        · exact Or.inr h
      · rintro (h | h)
        · rcases h with rfl | h
          · exact Or.inr hmk
          · exact Or.inl h
        · exact Or.inr h
    · rw [if_neg hm, if_neg hm, ih (m :: ks), List.cons_append]
      congr 2
      apply dedupFirstAux_congr
      intro x
      simp only [List.mem_append, List.mem_cons]
      tauto

theorem dedupFirstAux_filter (ks l : List PubKey) (p : PubKey → Bool)
    (h : ∀ x ∈ l, p x = false → x ∈ ks) :
    dedupFirstAux ks (l.filter p) = dedupFirstAux ks l := by
  induction l generalizing ks with
  | nil => rfl
  | cons m ms ih =>
    by_cases hp : p m
    · rw [List.filter_cons_of_pos hp, dedupFirstAux, dedupFirstAux]
      by_cases hm : ks.contains m
      · rw [if_pos hm, if_pos hm]
        exact ih ks fun x hx hpx => h x (List.mem_cons_of_mem m hx) hpx
      · rw [if_neg hm, if_neg hm]
        rw [ih (m :: ks) fun x hx hpx =>
          List.mem_cons_of_mem m (h x (List.mem_cons_of_mem m hx) hpx)]
    · have hpf : p m = false := by
        simpa using hp
      rw [List.filter_cons_of_neg (by simp [hpf]), dedupFirstAux]
      have hmk : ks.contains m = true :=
        (contains_iff_mem ks m).mpr (h m (List.mem_cons_self m ms) hpf)
      rw [if_pos hmk]
      exact ih ks fun x hx hpx => h x (List.mem_cons_of_mem m hx) hpx

theorem mem_dedupRows {r : Row} :
    ∀ (ks : List PubKey) (rows : List Row), r ∈ dedupRows ks rows → r ∈ rows := by
  intro ks rows
  induction rows generalizing ks with
  | nil => simp [dedupRows]
  | cons x xs ih =>
    rw [dedupRows]
    by_cases hx : ks.contains x.1
    · rw [if_pos hx]
      exact fun h => List.mem_cons_of_mem x (ih ks h)
    · rw [if_neg hx]
      intro h
      rcases List.mem_cons.mp h with rfl | h
      · exact List.mem_cons_self _ _
      · exact List.mem_cons_of_mem x (ih (x.1 :: ks) h)

theorem dedupRows_keys :
    ∀ (ks : List PubKey) (rows : List Row),
    (dedupRows ks rows).map (·.1) = dedupFirstAux ks (rows.map (·.1)) := by
  intro ks rows
  induction rows generalizing ks with
  | nil => rfl
  | cons x xs ih =>
    rw [dedupRows, List.map_cons, dedupFirstAux]
    by_cases hx : ks.contains x.1
    · rw [if_pos hx, if_pos hx]
      exact ih ks
    · rw [if_neg hx, if_neg hx, List.map_cons, ih (x.1 :: ks)]


theorem filterMap_if_keys (l : List PubKey) (c : PubKey → Bool)
    (f : PubKey → Row) (hf : ∀ m, (f m).1 = m) :
    ((l.filterMap fun m => if c m then none else some (f m)).map (·.1)) =
      l.filter fun m => !c m := by
  induction l with
  | nil => rfl
  | cons m ms ih =>
    rw [List.filterMap_cons, List.filter_cons]
    by_cases hm : c m
    · rw [if_pos hm]
      simp only [hm, Bool.not_true, if_false]
      exact ih
    · rw [if_neg hm]
      have hmf : c m = false := by simpa using hm
      simp only [hmf, Bool.not_false, if_true, List.map_cons, hf m]
      rw [ih]

theorem mem_candPaths {next : PubKey → List PubKey} {frontier : List Row}
    {depth : Nat} {r : Row} (h : r ∈ candPaths next frontier depth) :
    ∃ s ∈ frontier, ∃ m ∈ next s.1,
      s.2.2.contains m = false ∧ r = (m, depth + 1, s.2.2 ++ [m]) := by
  obtain ⟨s, hs, hr⟩ := List.mem_flatMap.mp h
  obtain ⟨m, hm, hmr⟩ := List.mem_filterMap.mp hr
  by_cases hc : s.2.2.contains m
  · rw [if_pos hc] at hmr
    cases hmr
  · rw [if_neg hc] at hmr
    rw [Option.some_inj] at hmr
    exact ⟨s, hs, m, hm, by simpa using hc, hmr.symm⟩

theorem candPaths_keys (next : PubKey → List PubKey) :
    ∀ (frontier : List Row) (depth : Nat) (ks : List PubKey),
    (∀ r ∈ frontier, ∀ x ∈ r.2.2, x ∈ ks) →
    dedupFirstAux ks ((candPaths next frontier depth).map (·.1)) =
      dedupFirstAux ks ((frontier.map (·.1)).flatMap next) := by
  intro frontier
  induction frontier with
  | nil => intro depth ks _; rfl
  | cons r rs ih =>
    intro depth ks hp
    have hblock : candPaths next (r :: rs) depth =
        ((next r.1).filterMap fun m =>
          if r.2.2.contains m then none else some (m, depth + 1, r.2.2 ++ [m])) ++
        candPaths next rs depth := by
      rw [candPaths, List.flatMap_cons]
      rfl
    rw [hblock, List.map_append, dedupFirstAux_append]
    rw [List.map_cons, List.flatMap_cons, dedupFirstAux_append]
    have hkeys : ((next r.1).filterMap fun m =>
        if r.2.2.contains m then none
        else some ((m, depth + 1, r.2.2 ++ [m]) : Row)).map (·.1) =
        (next r.1).filter fun m => !(r.2.2.contains m) :=
      filterMap_if_keys _ _ _ (fun m => rfl)
    rw [hkeys]
    congr 1
    · rw [dedupFirstAux_filter]
      intro x hx hpx
      have hcx : r.2.2.contains x = true := by
        by_contra hfalse
        have hff : r.2.2.contains x = false := by simpa using hfalse
        rw [hff] at hpx
        simp at hpx
      exact hp r (List.mem_cons_self r rs) x ((contains_iff_mem _ x).mp hcx)
    · rw [ih depth ((next r.1).filter (fun m => !(r.2.2.contains m)) ++ ks)
        (fun s hs x hxx => List.mem_append_right _
          (hp s (List.mem_cons_of_mem r hs) x hxx))]
      apply dedupFirstAux_congr
      intro x
      simp only [List.mem_append, List.mem_filter]
      constructor
      · rintro (⟨h1, _⟩ | h)
        · exact Or.inl h1
        · exact Or.inr h
      · rintro (h | h)
        · by_cases hc : r.2.2.contains x
          · exact Or.inr (hp r (List.mem_cons_self r rs) x
              ((contains_iff_mem _ x).mp hc))
          · exact Or.inl ⟨h, by simpa using hc⟩
        · exact Or.inr h


theorem candPaths_depth {next : PubKey → List PubKey} {frontier : List Row}
    {depth : Nat} {r : Row} (h : r ∈ candPaths next frontier depth) :
    r.2.1 = depth + 1 := by
  obtain ⟨s, _, m, _, _, rfl⟩ := mem_candPaths h
  rfl

theorem bfsPathAux_strip (next : PubKey → List PubKey) :
    ∀ (fuel : Nat) (table frontier : List Row) (depth : Nat),
    (∀ r ∈ table, ∀ x ∈ r.2.2, x ∈ table.map (·.1)) →
    (∀ r ∈ frontier, r ∈ table) →
    (bfsPathAux next fuel table frontier depth).map stripRow =
      bfsAux next fuel (table.map stripRow) (frontier.map (·.1)) depth := by
  intro fuel
  induction fuel with
  | zero =>
    intro table frontier depth _ _
    rw [bfsPathAux, bfsAux]
  | succ fuel ih =>
    intro table frontier depth htp hfs
    by_cases hemp : frontier.isEmpty
    · have hkemp : (frontier.map (·.1)).isEmpty = true := by
        rw [List.isEmpty_iff] at hemp ⊢
        rw [hemp]
        rfl
      rw [bfsPathAux, if_pos hemp, bfsAux, if_pos hkemp]
    · have hkemp : ¬ (frontier.map (·.1)).isEmpty = true := by
        rw [List.isEmpty_iff] at hemp ⊢
        intro h
        exact hemp (List.map_eq_nil_iff.mp h)
      rw [bfsPathAux, if_neg hemp, bfsAux, if_neg hkemp]
      set cand := dedupRows (table.map (·.1)) (candPaths next frontier depth)
        with hcand
      have hkeysmap : (table.map stripRow).map Prod.fst = table.map (·.1) := by
        rw [List.map_map]
        rfl
      have hckeys : dedupFirstAux ((table.map stripRow).map Prod.fst)
          ((frontier.map (·.1)).flatMap next) = cand.map (·.1) := by
        rw [hkeysmap, hcand, dedupRows_keys]
        rw [candPaths_keys next frontier depth (table.map (·.1))
          (fun r hr x hx => htp r (hfs r hr) x hx)]
      have hcdepth : ∀ r ∈ cand, r.2.1 = depth + 1 := by
        intro r hr
        exact candPaths_depth (mem_dedupRows _ _ hr)
      have hcstrip : cand.map stripRow =
          (cand.map (·.1)).map (fun c => (c, depth + 1)) := by
        rw [List.map_map]
        apply List.map_congr_left
        intro r hr
        show stripRow r = (r.1, depth + 1)
        rw [stripRow, hcdepth r hr]
      have htp2 : ∀ r ∈ table ++ cand, ∀ x ∈ r.2.2, x ∈ (table ++ cand).map (·.1) := by
        intro r hr x hx
        rw [List.map_append, List.mem_append]
        rcases List.mem_append.mp hr with hr | hr
        · exact Or.inl (htp r hr x hx)
        · obtain ⟨s, hsf, m, hm, hnc, heq⟩ := mem_candPaths (mem_dedupRows _ _ hr)
          rw [heq] at hx
          simp only at hx
          rcases List.mem_append.mp hx with hx | hx
          · exact Or.inl (htp s (hfs s hsf) x hx)
          · rw [List.mem_singleton] at hx
            subst hx
            right
            have : r.1 = x := by
              rw [heq]
            rw [← this]
            exact List.mem_map_of_mem _ hr
      have hfs2 : ∀ r ∈ cand, r ∈ table ++ cand := by
        intro r hr
        exact List.mem_append_right _ hr
      rw [ih (table ++ cand) cand (depth + 1) htp2 hfs2]
      rw [List.map_append, hckeys, hcstrip]


theorem bfsPathFrom_strip (next : PubKey → List PubKey) (fuel : Nat)
    (s : PubKey) :
    (bfsPathFrom next fuel s).map stripRow = bfsFrom next fuel s := by
  rw [bfsPathFrom, bfsFrom]
  have h := bfsPathAux_strip next fuel [(s, 0, [s])] [(s, 0, [s])] 0
    (by
      intro r hr x hx
      rw [List.mem_singleton] at hr
      subst hr
      simp only [List.map_cons, List.map_nil]
      simpa using hx)
    (fun r hr => hr)
  rw [h]
  rfl

theorem lookup_strip (rows : List Row) (k : PubKey) :
    (rows.map stripRow).lookup k = (rows.find? (·.1 == k)).map (·.2.1) := by
  induction rows with
  | nil => rfl
  | cons r rs ih =>
    rw [List.map_cons, List.lookup, List.find?]
    by_cases hk : k = r.1
    · subst hk
      simp only [stripRow, beq_self_eq_true]
      rfl
    · have h1 : (k == r.1) = false := by simpa using hk
      have h2 : (r.1 == k) = false := by
        simpa using fun h => hk h.symm
      simp only [stripRow, h1, h2]
      exact ih

theorem foldl_min_strip {β : Type} :
    ∀ (l : List (Nat × β)) (acc : Option (Nat × β)),
    (l.foldl pickMinRow acc).map (·.1) =
    (l.map (·.1)).foldl (fun b c =>
      match b with
      | none => some c
      | some b => if c < b then some c else some b) (acc.map (·.1)) := by
  intro l
  induction l with
  | nil => intro acc; rfl
  | cons x xs ih =>
    intro acc
    rw [List.foldl_cons, List.map_cons, List.foldl_cons]
    cases acc with
    | none => exact ih (some x)
    | some b =>
      simp only [Option.map_some', pickMinRow]
      by_cases hx : x.1 < b.1
      · rw [if_pos hx, if_pos hx]
        exact ih (some x)
      · rw [if_neg hx, if_neg hx]
        exact ih (some b)

theorem bestMeeting_totals (fwdRows bwdRows : List Row) (nf nt : PubKey) :
    (bestMeeting fwdRows bwdRows nf nt).map (·.1) =
      searchMinTotal (fwdRows.map stripRow) (bwdRows.map stripRow) nf nt := by
  rw [bestMeeting, searchMinTotal, minNat?]
  rw [foldl_min_strip]
  congr 1
  rw [List.filterMap_map, List.map_filterMap]
  congr 1
  funext r
  rw [Function.comp_apply]
  show (if r.1 == nf || r.1 == nt then none
      else (bwdRows.find? (·.1 == r.1)).map fun rb =>
        ((r.2.1 + rb.2.1, r.2.2, rb.2.2) : Nat × List PubKey × List PubKey)).map
          (·.1) =
    (if (stripRow r).1 == nf || (stripRow r).1 == nt then none
      else ((bwdRows.map stripRow).lookup (stripRow r).1).map ((stripRow r).2 + ·))
  simp only [stripRow]
  by_cases hg : (r.1 == nf || r.1 == nt) = true
  · rw [if_pos hg, if_pos hg]
    rfl
  · rw [if_neg hg, if_neg hg]
    rw [lookup_strip]
    rw [Option.map_map, Option.map_map]
    rfl

theorem findSomeIf_isSome {α β : Type} :
    ∀ (l : List α) (c : α → Bool) (v : α → β),
    (l.findSome? fun x => if c x then some (v x) else none).isSome = l.any c := by
  intro l c v
  induction l with
  | nil => rfl
  | cons x xs ih =>
    rw [List.findSome?_cons, List.any_cons]
    by_cases hc : c x
    · rw [if_pos hc, hc]
      rfl
    · have hcf : c x = false := by simpa using hc
      rw [if_neg hc, hcf]
      simpa using ih

theorem findTwoHopMid_isSome (g : FollowsTable) (a b : PubKey) :
    (findTwoHopMid g a b).isSome = hasTwoHop g a b := by
  rw [findTwoHopMid, hasTwoHop]
  exact findSomeIf_isSome g _ _


theorem pubkeyExists_of_followed {g : FollowsTable} {f : Follow}
    (hf : f ∈ g) : pubkeyExistsIn g f.followed = true := by
  simp only [pubkeyExistsIn, List.any_eq_true, Bool.or_eq_true, beq_iff_eq]
  exact ⟨f, hf, Or.inr rfl⟩

theorem preds_nil_of_absent {g : FollowsTable} {b : PubKey}
    (h : pubkeyExistsIn g b = false) : preds g b = [] := by
  rw [preds, List.map_eq_nil_iff, List.filter_eq_nil_iff]
  intro f hf
  intro hfb
  rw [beq_iff_eq] at hfb
  rw [← hfb] at h
  rw [pubkeyExists_of_followed hf] at h
  cases h

theorem bfsAux_empty_frontier (next : PubKey → List PubKey) :
    ∀ (fuel : Nat) (table : List (PubKey × Nat)) (depth : Nat),
    bfsAux next fuel table [] depth = table := by
  intro fuel table depth
  cases fuel with
  | zero => rfl
  | succ fuel =>
    rw [bfsAux, if_pos (by rfl)]

theorem bfsFrom_no_succ (next : PubKey → List PubKey) (s : PubKey)
    (fuel : Nat) (h : next s = []) : bfsFrom next fuel s = [(s, 0)] := by
  rw [bfsFrom]
  cases fuel with
  | zero => rfl
  | succ fuel =>
    rw [bfsAux, if_neg (by simp)]
    have hc : dedupFirstAux ([(s, 0)].map Prod.fst) ([s].flatMap next) = [] := by
      rw [show [s].flatMap next = next s by simp, h]
      rfl
    rw [hc]
    simpa using bfsAux_empty_frontier next fuel _ (0 + 1)

theorem searchMinTotal_absent (g : FollowsTable) (nf nt : PubKey) (s : Nat)
    (habs : pubkeyExistsIn g nt = false) :
    searchMinTotal (bfsFrom (succs g) s nf) (bfsFrom (preds g) s nt) nf nt =
      none := by
  have hb : bfsFrom (preds g) s nt = [(nt, 0)] :=
    bfsFrom_no_succ (preds g) nt s (preds_nil_of_absent habs)
  rw [searchMinTotal, hb]
  have hempty : ((bfsFrom (succs g) s nf).filterMap fun r =>
      if r.1 == nf || r.1 == nt then none
      else (([(nt, 0)] : List (PubKey × Nat)).lookup r.1).map (r.2 + ·)) = [] := by
    rw [List.filterMap_eq_nil_iff]
    intro r hr
    by_cases hg : (r.1 == nf || r.1 == nt) = true
    · rw [if_pos hg]
    · rw [if_neg hg]
      have hne : (r.1 == nt) = false := by
        rcases Bool.or_eq_false_iff.mp (Bool.not_eq_true _ |>.mp hg) with ⟨_, h2⟩
        exact h2
      have hlook : (([(nt, 0)] : List (PubKey × Nat)).lookup r.1) = none := by
        rw [List.lookup]
        rw [hne]
        rfl
      rw [hlook]
      rfl
  rw [hempty]
  rfl


theorem findShortestPath_shape (g : FollowsTable) (fromP toP : String)
    (m : Nat) {nf nt : PubKey}
    (hnf : normalizePubkey fromP = .ok nf) (hnt : normalizePubkey toP = .ok nt) :
    findShortestPath g fromP toP m =
      if nf = nt then .ok (some ⟨[nf], 0⟩)
      else if (pubkeyExistsIn g nf && pubkeyExistsIn g nt) = false then .ok none
      else if hasEdge g nf nt = true then .ok (some ⟨[nf, nt], 1⟩)
      else
        match (if 2 ≤ m then findTwoHopMid g nf nt else none) with
        | some mid => .ok (some ⟨[nf, mid, nt], 2⟩)
        | none =>
          match bestMeeting (bfsPathFrom (succs g) (m / 2) nf)
              (bfsPathFrom (preds g) (m / 2) nt) nf nt with
          | none => .ok none
          | some (total, fp, bp) =>
            .ok (some ⟨fp ++ (bp.drop 1).reverse, total⟩) := by
  simp only [findShortestPath, hnf, hnt, okBind, Except.bind, bind]
  by_cases h1 : nf = nt
  · simp [h1, pureEq]
  · simp only [h1, if_false]
    by_cases h2 : (pubkeyExistsIn g nf && pubkeyExistsIn g nt) = false
    · simp [h1, h2, pureEq]
    · by_cases h3 : hasEdge g nf nt = true
      · simp [h1, h2, h3, pureEq]
      · by_cases h4 : 2 ≤ m
        · cases hmid : findTwoHopMid g nf nt with
          | some mid =>
            simp [h1, h2, h3, h4, hmid, pureEq]
          | none =>
            cases hbm : bestMeeting (bfsPathFrom (succs g) (m / 2) nf)
                (bfsPathFrom (preds g) (m / 2) nt) nf nt with
            | none => simp [h1, h2, h3, h4, hmid, hbm, pureEq]
            | some trip =>
              obtain ⟨total, fp, bp⟩ := trip
              simp [h1, h2, h3, h4, hmid, hbm, pureEq]
        · cases hbm : bestMeeting (bfsPathFrom (succs g) (m / 2) nf)
              (bfsPathFrom (preds g) (m / 2) nt) nf nt with
          | none => simp [h1, h2, h3, h4, hbm, pureEq]
          | some trip =>
            obtain ⟨total, fp, bp⟩ := trip
            simp [h1, h2, h3, h4, hbm, pureEq]


/-- C3: for every graph state, every pair of valid pubkeys and every max
depth, findShortestPath and findShortestDistance agree: they are null
together, and when non-null the distance field of the path equals the
returned distance. -/
theorem path_distance_agreement (g : FollowsTable) (a b : String) (m : Nat)
    (ha : isHexKey a = true) (hb : isHexKey b = true) :
    ∃ pr, findShortestPath g a b m = .ok pr ∧
      findShortestDistance g a b m false = .ok (pr.map SocialPath.distance) := by
  have hna := (normalizeHex ha).1
  have hnb := (normalizeHex hb).1
  set nf := jsToLower a with hnf
  set nt := jsToLower b with hnt
  rw [findShortestPath_shape g a b m hna hnb,
    findShortestDistance_shape g a b m hna hnb]
  by_cases h1 : nf = nt
  · exact ⟨some ⟨[nf], 0⟩, by rw [if_pos h1], by rw [if_pos h1]; rfl⟩
  · rw [if_neg h1, if_neg h1]
    by_cases hfa : pubkeyExistsIn g nf = false
    · refine ⟨none, ?_, ?_⟩
      · rw [if_pos (by rw [hfa]; rfl)]
      · rw [if_pos hfa]
        rfl
    · have hfa2 : pubkeyExistsIn g nf = true := by
        simpa using hfa
      rw [if_neg hfa]
      by_cases hfb : pubkeyExistsIn g nt = false
      · have hedge : hasEdge g nf nt = false := by
          by_contra h
          have h2 : hasEdge g nf nt = true := by simpa using h
          obtain ⟨f, hf, _, hfol⟩ := mem_succs.mp (hasEdge_iff.mp h2)
          rw [← hfol] at hfb
          rw [pubkeyExists_of_followed hf] at hfb
          cases hfb
        have hth : hasTwoHop g nf nt = false := by
          by_contra h
          have h2 : hasTwoHop g nf nt = true := by simpa using h
          obtain ⟨c, _, hcb⟩ := hasTwoHop_iff.mp h2
          obtain ⟨f, hf, _, hfol⟩ := mem_succs.mp hcb
          rw [← hfol] at hfb
          rw [pubkeyExists_of_followed hf] at hfb
          cases hfb
        refine ⟨none, ?_, ?_⟩
        · rw [if_pos (by rw [hfa2, hfb]; rfl)]
        · rw [if_neg (by rw [hedge]; intro h; cases h)]
          rw [if_neg (by rw [hth]; rintro ⟨_, h⟩; cases h)]
          rw [searchMinTotal_absent g nf nt (m / 2) hfb]
          rfl
      · have hfb2 : pubkeyExistsIn g nt = true := by
          simpa using hfb
        rw [if_neg (by rw [hfa2, hfb2]; intro h; cases h)]
        by_cases hedge : hasEdge g nf nt = true
        · exact ⟨some ⟨[nf, nt], 1⟩, by rw [if_pos hedge],
            by rw [if_pos hedge]; rfl⟩
        · rw [if_neg hedge, if_neg hedge]
          have hsearch :
              (bestMeeting (bfsPathFrom (succs g) (m / 2) nf)
                (bfsPathFrom (preds g) (m / 2) nt) nf nt).map (·.1) =
              searchMinTotal (bfsFrom (succs g) (m / 2) nf)
                (bfsFrom (preds g) (m / 2) nt) nf nt := by
            rw [bestMeeting_totals, bfsPathFrom_strip, bfsPathFrom_strip]
          cases hmid : findTwoHopMid g nf nt with
          | some mid =>
            have hth : hasTwoHop g nf nt = true := by
              rw [← findTwoHopMid_isSome, hmid]
              rfl
            by_cases hm : 2 ≤ m
            · refine ⟨some ⟨[nf, mid, nt], 2⟩, ?_, ?_⟩
              · rw [if_pos hm]
              · rw [if_pos ⟨hm, hth⟩]
                rfl
            · rw [if_neg hm, if_neg (fun h => hm h.1)]
              cases hbm : bestMeeting (bfsPathFrom (succs g) (m / 2) nf)
                  (bfsPathFrom (preds g) (m / 2) nt) nf nt with
              | none =>
                refine ⟨none, rfl, ?_⟩
                rw [hbm] at hsearch
                rw [← hsearch]
                rfl
              | some trip =>
                obtain ⟨total, fp, bp⟩ := trip
                refine ⟨some ⟨fp ++ (bp.drop 1).reverse, total⟩, rfl, ?_⟩
                rw [hbm] at hsearch
                rw [← hsearch]
                rfl
          | none =>
            have hth : hasTwoHop g nf nt = false := by
              rw [← findTwoHopMid_isSome, hmid]
              rfl
            have hcond : ¬ (2 ≤ m ∧ hasTwoHop g nf nt = true) := by
              rintro ⟨_, h⟩
              rw [hth] at h
              cases h
            rw [if_neg hcond]
            rw [ite_self]
            cases hbm : bestMeeting (bfsPathFrom (succs g) (m / 2) nf)
                (bfsPathFrom (preds g) (m / 2) nt) nf nt with
            | none =>
              refine ⟨none, rfl, ?_⟩
              rw [hbm] at hsearch
              rw [← hsearch]
              rfl
            | some trip =>
              obtain ⟨total, fp, bp⟩ := trip
              refine ⟨some ⟨fp ++ (bp.drop 1).reverse, total⟩, rfl, ?_⟩
              rw [hbm] at hsearch
              rw [← hsearch]
              rfl


/-- Witness for C3 on the chain graph at depth 6. -/
theorem path_distance_agreement_witness :
    ∃ pr, findShortestPath gChain pka pkd 6 = .ok pr ∧
      findShortestDistance gChain pka pkd 6 false =
        .ok (pr.map SocialPath.distance) :=
  path_distance_agreement gChain pka pkd 6 (by decide) (by decide)

/-! ## Claim C5: self queries and cycle safety -/

/-- C5: for every valid pubkey p, every graph (self edges and cycles
included) and every max depth, the shortest distance from p to itself is
0 and the shortest path is the single node path.  Both searches return
on their first branch without touching the edges, and every search in
this development is a total fuel-bounded function, so a cycle through p
can neither produce a nonzero answer nor prevent termination. -/
theorem self_query_zero (g : FollowsTable) (p : String) (m : Nat)
    (hp : isHexKey p = true) :
    findShortestDistance g p p m false = .ok (some 0) ∧
    findShortestPath g p p m = .ok (some ⟨[jsToLower p], 0⟩) := by
  constructor
  · simp [findShortestDistance, normalizePubkey, hp, Except.bind, bind, pure,
      Except.pure]
  · simp [findShortestPath, normalizePubkey, hp, Except.bind, bind, pure,
      Except.pure]

/-- Witness for C5 on the three cycle with a self edge. -/
theorem self_query_zero_witness :
    isHexKey pka = true ∧
    findShortestDistance gCycle pka pka 6 false = .ok (some 0) ∧
    findShortestPath gCycle pka pka 6 = .ok (some ⟨[pka], 0⟩) := by
  refine ⟨by decide, (self_query_zero gCycle pka 6 (by decide)).1, ?_⟩
  have h := (self_query_zero gCycle pka 6 (by decide)).2
  simpa [show jsToLower pka = pka from by decide] using h

/-! ## Claim C4: users within distance, absent node and small distance -/

/-- Counterexample to C4 as stated: with an absent starting key and
distance 0, getUsersWithinDistance returns the empty list, not none, so
the clause that an absent node always yields none fails; the distance
guard runs first. -/
theorem users_within_distance_counterexample :
    pubkeyExistsIn ([] : FollowsTable) pka = false ∧
    getUsersWithinDistance ([] : FollowsTable) pka 0 = .ok (some []) ∧
    getUsersWithinDistance ([] : FollowsTable) pka 0 ≠ .ok none := by
  refine ⟨by decide, by decide, by decide⟩

/-- C4 (amended): getUsersWithinDistance returns the empty list whenever
the distance is below one, regardless of existence, and for distance at
least one it returns none when the starting key is absent from the
graph. -/
theorem users_within_distance_amended (g : FollowsTable) (p : String)
    (d : Int) (hp : isHexKey p = true) :
    (d < 1 → getUsersWithinDistance g p d = .ok (some [])) ∧
    (1 ≤ d → pubkeyExistsIn g (jsToLower p) = false →
      getUsersWithinDistance g p d = .ok none) := by
  constructor
  · intro hd
    simp [getUsersWithinDistance, normalizePubkey, hp, hd, okBind]
  · intro hd habs
    have hnd : ¬ d < 1 := by omega
    simp [getUsersWithinDistance, normalizePubkey, hp, hnd, habs, okBind, pureEq]

/-- Witness for the amended C4 with a key absent from the chain graph. -/
theorem users_within_distance_amended_witness :
    getUsersWithinDistance gChain pk9 0 = .ok (some []) ∧
    getUsersWithinDistance gChain pk9 1 = .ok none := by
  exact ⟨(users_within_distance_amended gChain pk9 0 (by decide)).1 (by decide),
         (users_within_distance_amended gChain pk9 1 (by decide)).2 (by decide)
           (by decide)⟩

/-! ## Claim C10: the closed analyzer guard -/

/-- C10: once closed, every guarded graph operation of the analyzer
throws the closed error (and, returning only an error, leaves the stored
graph untouched); close is idempotent, a second close returns without
error and without change, and isClosed reports true from then on. -/
theorem closed_analyzer_guard (st : AnalyzerState) (e : NostrEvent)
    (evs : List NostrEvent) (a b p : String) (d : Int) :
    (st.closed = true →
      anIngestEvent st e = .error closedMsg ∧
      anIngestEvents st evs = .error closedMsg ∧
      anGetShortestPath st a b = .error closedMsg ∧
      anGetShortestDistance st a b = .error closedMsg ∧
      anGetUsersWithinDistance st a d = .error closedMsg ∧
      anIsDirectFollow st a b = .error closedMsg ∧
      anAreMutualFollows st a b = .error closedMsg ∧
      anGetPubkeyDegree st p = .error closedMsg ∧
      anSetRootPubkey st p = .error closedMsg) ∧
    anClose (anClose st) = anClose st ∧
    anIsClosed (anClose st) = true ∧
    (st.closed = true → anClose st = st) := by
  refine ⟨fun h => ?_, ?_, ?_, fun h => by simp [anClose, h]⟩
  · exact ⟨by simp [anIngestEvent, h, throwEq, errBind],
      by simp [anIngestEvents, h, throwEq, errBind],
      by simp [anGetShortestPath, h, throwEq, errBind],
      by simp [anGetShortestDistance, h, throwEq, errBind],
      by simp [anGetUsersWithinDistance, h, throwEq, errBind],
      by simp [anIsDirectFollow, h, throwEq, errBind],
      by simp [anAreMutualFollows, h, throwEq, errBind],
      by simp [anGetPubkeyDegree, h, throwEq, errBind],
      by simp [anSetRootPubkey, h, throwEq, errBind]⟩
  · by_cases h : st.closed = true <;> simp [anClose, h]
  · by_cases h : st.closed = true <;> simp [anClose, anIsClosed, h]

/-- Witness for C10 at a concrete closed analyzer. -/
theorem closed_analyzer_guard_witness :
    anIngestEvent stClosed (mkEvent pka 1 [pkb]) = .error closedMsg ∧
    anGetShortestPath stClosed pka pkb = .error closedMsg ∧
    anClose (anClose stClosed) = anClose stClosed ∧
    anIsClosed (anClose stClosed) = true := by
  have h := closed_analyzer_guard stClosed (mkEvent pka 1 [pkb]) []
    pka pkb pka 1
  exact ⟨(h.1 rfl).1, (h.1 rfl).2.2.1, h.2.1, h.2.2.1⟩

/-! ## Claim C6: delta propagation extends the index without rebuild -/

/-- C6: starting from the analyzer whose graph is the single edge a to b
with a valid root index built from a, ingesting an event that gives b
the follow list containing c leaves the index holding c at distance 2.
The ingestEvent code path runs only updateRootDistancesDelta; the full
rebuild buildRootDistancesTable is never invoked on this path, as its
definition shows. -/
theorem delta_extends_index :
    (do
      let st1 ← anIngestEvent stDelta (mkEvent pkb 50 [pkc])
      getDistanceFromRoot st1.rootTable pkc) = .ok (some 2) ∧
    (anIngestEvent stDelta (mkEvent pkb 50 [pkc])).map (·.rootTable) =
      .ok [(pka, 0), (pkb, 1), (pkc, 2)] := by
  constructor
  · decide
  · decide

/-! ## Claim C9: invalid identifiers and case normalization -/

/-- C9: every query operation taking a pubkey (shortest path, shortest
distance, users within distance, direct follow, mutual follow, degree,
and set root on an open analyzer) throws the invalid format error when
an input key is not a 64 character hex string, and for valid keys the
result is unchanged by lower-casing the key, since every operation
normalizes its inputs to lower case first. -/
theorem invalid_pubkey_and_case (g : FollowsTable) (st : AnalyzerState)
    (a b : String) (m : Nat) (d : Int) :
    (isHexKey a = false →
      findShortestPath g a b m = .error ("Invalid pubkey format: " ++ a) ∧
      findShortestDistance g a b m false = .error ("Invalid pubkey format: " ++ a) ∧
      getUsersWithinDistance g a d = .error ("Invalid pubkey format: " ++ a) ∧
      isDirectFollow g a b = .error ("Invalid pubkey format: " ++ a) ∧
      areMutualFollows g a b = .error ("Invalid pubkey format: " ++ a) ∧
      getPubkeyDegree g a = .error ("Invalid pubkey format: " ++ a) ∧
      (st.closed = false →
        anSetRootPubkey st a = .error ("Invalid pubkey format: " ++ a))) ∧
    (isHexKey a = true → isHexKey b = false →
      findShortestPath g a b m = .error ("Invalid pubkey format: " ++ b) ∧
      findShortestDistance g a b m false = .error ("Invalid pubkey format: " ++ b) ∧
      isDirectFollow g a b = .error ("Invalid pubkey format: " ++ b) ∧
      areMutualFollows g a b = .error ("Invalid pubkey format: " ++ b)) ∧
    (isHexKey a = true →
      findShortestPath g a b m = findShortestPath g (jsToLower a) b m ∧
      findShortestDistance g a b m false =
        findShortestDistance g (jsToLower a) b m false ∧
      getUsersWithinDistance g a d = getUsersWithinDistance g (jsToLower a) d ∧
      isDirectFollow g a b = isDirectFollow g (jsToLower a) b ∧
      areMutualFollows g a b = areMutualFollows g (jsToLower a) b ∧
      getPubkeyDegree g a = getPubkeyDegree g (jsToLower a) ∧
      anSetRootPubkey st a = anSetRootPubkey st (jsToLower a)) ∧
    (isHexKey b = true →
      findShortestPath g a b m = findShortestPath g a (jsToLower b) m ∧
      findShortestDistance g a b m false =
        findShortestDistance g a (jsToLower b) m false ∧
      isDirectFollow g a b = isDirectFollow g a (jsToLower b) ∧
      areMutualFollows g a b = areMutualFollows g a (jsToLower b)) := by
  refine ⟨fun ha => ?_, fun ha hb => ?_, fun ha => ?_, fun hb => ?_⟩
  · refine ⟨?_, ?_, ?_, ?_, ?_, ?_, fun hc => ?_⟩
    case refine_7 =>
      simp [anSetRootPubkey, normalizePubkey, ha, hc, Except.bind, bind,
        throwEq, errBind, pureEq, pure, Except.pure]
    all_goals
      simp [findShortestPath, findShortestDistance, getUsersWithinDistance,
        isDirectFollow, areMutualFollows, getPubkeyDegree,
        normalizePubkey, ha, Except.bind, bind, throwEq, errBind]
  · have hberr : normalizePubkey b = .error ("Invalid pubkey format: " ++ b) := by
      simp [normalizePubkey, hb]
    refine ⟨?_, ?_, ?_, ?_⟩ <;>
      simp [findShortestPath, findShortestDistance, isDirectFollow,
        areMutualFollows, (normalizeHex ha).1, hberr, Except.bind, bind]
  · refine ⟨?_, ?_, ?_, ?_, ?_, ?_, ?_⟩ <;>
      simp [findShortestPath, findShortestDistance, getUsersWithinDistance,
        isDirectFollow, areMutualFollows, getPubkeyDegree, anSetRootPubkey,
        (normalizeHex ha).1, (normalizeHex ha).2, Except.bind, bind]
  · refine ⟨?_, ?_, ?_, ?_⟩ <;>
      simp [findShortestPath, findShortestDistance, isDirectFollow,
        areMutualFollows, (normalizeHex hb).1, (normalizeHex hb).2,
        Except.bind, bind]

/-- Witness for C9: a malformed key is rejected, and an upper-case
spelling gives the same answer as its lower-case form. -/
theorem invalid_pubkey_and_case_witness :
    isDirectFollow gChain "zz" pkb = .error ("Invalid pubkey format: zz") ∧
    isDirectFollow gChain pkUA pkb = isDirectFollow gChain (jsToLower pkUA) pkb := by
  exact ⟨((invalid_pubkey_and_case gChain stDelta "zz" pkb 6 1).1
            (by decide)).2.2.2.1,
         ((invalid_pubkey_and_case gChain stDelta pkUA pkb 6 1).2.2.1
            (by decide)).2.2.2.1⟩

/-! ## Claim C7 machinery: the latest-event map -/

theorem firstMaxFold_nil (init : Option NostrEvent) :
    firstMaxFold init [] = init := rfl

theorem firstMaxFold_cons_none (x : NostrEvent) (l : List NostrEvent) :
    firstMaxFold none (x :: l) = firstMaxFold (some x) l := by
  simp [firstMaxFold]

theorem firstMaxFold_cons_some (c x : NostrEvent) (l : List NostrEvent) :
    firstMaxFold (some c) (x :: l) =
      firstMaxFold (if x.created_at > c.created_at then some x else some c) l := by
  simp only [firstMaxFold, List.foldl_cons]

theorem findq_cons (p : NostrEvent → Bool) (a : NostrEvent)
    (l : List NostrEvent) :
    (a :: l).find? p = if p a then some a else l.find? p := by
  rw [List.find?]
  cases h : p a <;> simp

theorem find_map_self (e : NostrEvent) : ∀ acc : List NostrEvent,
    (acc.map fun x =>
      if x.pubkey == e.pubkey && e.created_at > x.created_at then e else x).find?
        (·.pubkey == e.pubkey) =
      match acc.find? (·.pubkey == e.pubkey) with
      | none => none
      | some c => some (if e.created_at > c.created_at then e else c) := by
  intro acc
  induction acc with
  | nil => rfl
  | cons x xs ih =>
    by_cases hx : x.pubkey = e.pubkey
    · have hbe : (x.pubkey == e.pubkey) = true := by simpa using hx
      by_cases hgt : e.created_at > x.created_at
      · have hcond : (x.pubkey == e.pubkey && decide (e.created_at > x.created_at)) = true := by
          simp [hbe, hgt]
        simp only [List.map_cons, findq_cons, hcond, if_true, hbe]
        simp [hgt]
      · have hcond : (x.pubkey == e.pubkey && decide (e.created_at > x.created_at)) = false := by
          simp [hbe, hgt]
        simp only [List.map_cons, findq_cons, hcond, Bool.false_eq_true,
          if_false, hbe, if_true]
        simp [hbe, hgt]
    · have hbe : (x.pubkey == e.pubkey) = false := by simpa using hx
      simp only [List.map_cons, findq_cons, hbe, Bool.false_and,
        Bool.false_eq_true, if_false]
      exact ih

theorem find_map_ne (e : NostrEvent) {F : PubKey} (hne : e.pubkey ≠ F) :
    ∀ acc : List NostrEvent,
    (acc.map fun x =>
      if x.pubkey == e.pubkey && e.created_at > x.created_at then e else x).find?
        (·.pubkey == F) = acc.find? (·.pubkey == F) := by
  intro acc
  have heF : (e.pubkey == F) = false := by simpa using hne
  induction acc with
  | nil => rfl
  | cons x xs ih =>
    by_cases hcond : (x.pubkey == e.pubkey && decide (e.created_at > x.created_at)) = true
    · have hxe : x.pubkey = e.pubkey := by
        have := (Bool.and_eq_true _ _).mp hcond
        simpa using this.1
      have hxF : (x.pubkey == F) = false := by
        rw [hxe]; exact heF
      simp only [List.map_cons, findq_cons, hcond, if_true, heF, hxF,
        Bool.false_eq_true, if_false]
      exact ih
    · have hcond' : (x.pubkey == e.pubkey && decide (e.created_at > x.created_at)) = false := by
        simpa using hcond
      simp only [List.map_cons, findq_cons, hcond', Bool.false_eq_true, if_false]
      cases hxF : (x.pubkey == F) with
      | true => simp only [hxF, if_true]
      | false =>
        simp only [hxF, Bool.false_eq_true, if_false]
        exact ih

theorem insertLatest_find_ne {e : NostrEvent} {F : PubKey} (hne : e.pubkey ≠ F)
    (acc : List NostrEvent) :
    (insertLatest acc e).find? (·.pubkey == F) = acc.find? (·.pubkey == F) := by
  unfold insertLatest
  by_cases hany : acc.any (·.pubkey == e.pubkey)
  · rw [if_pos hany]
    exact find_map_ne e hne acc
  · rw [if_neg hany]
    have hfe : ([e].find? (·.pubkey == F)) = none := by
      simp [List.find?, show (e.pubkey == F) = false by simpa using hne]
    cases hacc : acc.find? (·.pubkey == F) with
    | some c =>
      rw [List.find?_append, hacc]
      rfl
    | none =>
      rw [List.find?_append, hacc, Option.none_or, hfe]

theorem insertLatest_find_self (e : NostrEvent) (acc : List NostrEvent) :
    (insertLatest acc e).find? (·.pubkey == e.pubkey) =
      match acc.find? (·.pubkey == e.pubkey) with
      | none => some e
      | some c => if e.created_at > c.created_at then some e else some c := by
  unfold insertLatest
  by_cases hany : acc.any (·.pubkey == e.pubkey)
  · rw [if_pos hany]
    rw [find_map_self]
    rcases List.any_eq_true.mp hany with ⟨x, hx, hpx⟩
    cases hacc : acc.find? (·.pubkey == e.pubkey) with
    | none =>
      exact absurd hpx (by simpa using (List.find?_eq_none.mp hacc) x hx)
    | some c =>
      by_cases hgt : e.created_at > c.created_at <;> simp [hgt]
  · rw [if_neg hany]
    have hacc : acc.find? (·.pubkey == e.pubkey) = none := by
      rw [List.find?_eq_none]
      intro x hx hpx
      exact hany (List.any_eq_true.mpr ⟨x, hx, hpx⟩)
    rw [List.find?_append, hacc, Option.none_or]
    simp [findq_cons]

theorem insertLatest_authors (acc : List NostrEvent) (e : NostrEvent) :
    (insertLatest acc e).map (·.pubkey) =
      if acc.any (·.pubkey == e.pubkey) then acc.map (·.pubkey)
      else acc.map (·.pubkey) ++ [e.pubkey] := by
  unfold insertLatest
  by_cases hany : acc.any (·.pubkey == e.pubkey)
  · rw [if_pos hany, if_pos hany, List.map_map]
    apply List.map_congr_left
    intro x _
    simp only [Function.comp_apply]
    by_cases hcond : (x.pubkey == e.pubkey && decide (e.created_at > x.created_at)) = true
    · rw [if_pos hcond]
      have h2 := (Bool.and_eq_true _ _).mp hcond
      have hx2 : x.pubkey = e.pubkey := by simpa using h2.1
      exact hx2.symm
    · rw [if_neg hcond]
  · rw [if_neg hany, if_neg hany, List.map_append]
    rfl

theorem insertLatest_nodup {acc : List NostrEvent} (e : NostrEvent)
    (hnd : (acc.map (·.pubkey)).Nodup) :
    ((insertLatest acc e).map (·.pubkey)).Nodup := by
  rw [insertLatest_authors]
  by_cases hany : acc.any (·.pubkey == e.pubkey)
  · rw [if_pos hany]; exact hnd
  · rw [if_neg hany]
    rw [List.nodup_append]
    refine ⟨hnd, List.nodup_singleton _, ?_⟩
    intro a ha hb
    rcases List.mem_singleton.mp hb with rfl
    rcases List.mem_map.mp ha with ⟨x, hx, hxe⟩
    exact hany (List.any_eq_true.mpr ⟨x, hx, by simpa using hxe⟩)

theorem dedupFold_find (F : PubKey) :
    ∀ (evs acc : List NostrEvent), (acc.map (·.pubkey)).Nodup →
    (evs.foldl insertLatest acc).find? (·.pubkey == F) =
      firstMaxFold (acc.find? (·.pubkey == F)) (authorEvents F evs) := by
  intro evs
  induction evs with
  | nil =>
    intro acc _
    simp [authorEvents, firstMaxFold]
  | cons e es ih =>
    intro acc hnd
    rw [List.foldl_cons, ih (insertLatest acc e) (insertLatest_nodup e hnd)]
    by_cases hpe : e.pubkey = F
    · subst hpe
      simp only [authorEvents]
      rw [List.filter_cons_of_pos (by simp)]
      rw [insertLatest_find_self]
      cases hacc : acc.find? (·.pubkey == e.pubkey) with
      | none => rw [firstMaxFold_cons_none]
      | some c => rw [firstMaxFold_cons_some]
    · simp only [authorEvents]
      rw [List.filter_cons_of_neg (by simpa using hpe),
        insertLatest_find_ne hpe]

theorem dedupLatest_find (evs : List NostrEvent) (F : PubKey) :
    (dedupLatest evs).find? (·.pubkey == F) =
      firstMaxFold none (authorEvents F evs) := by
  rw [dedupLatest, dedupFold_find F evs [] (by simp)]
  rfl

theorem dedupLatest_nodup (evs : List NostrEvent) :
    ((dedupLatest evs).map (·.pubkey)).Nodup := by
  rw [dedupLatest]
  have : ∀ (l acc : List NostrEvent), (acc.map (·.pubkey)).Nodup →
      ((l.foldl insertLatest acc).map (·.pubkey)).Nodup := by
    intro l
    induction l with
    | nil => intro acc h; exact h
    | cons e es ih =>
      intro acc h
      exact ih _ (insertLatest_nodup e h)
  exact this evs [] (by simp)

theorem firstMaxFold_some_iff (l : List NostrEvent) (c e : NostrEvent) :
    firstMaxFold (some c) l = some e ↔
      (e = c ∧ ∀ x ∈ l, x.created_at ≤ c.created_at) ∨
      (∃ l1 l2, l = l1 ++ e :: l2 ∧ c.created_at < e.created_at ∧
        (∀ x ∈ l1, x.created_at < e.created_at) ∧
        (∀ x ∈ l2, x.created_at ≤ e.created_at)) := by
  induction l generalizing c with
  | nil =>
    rw [firstMaxFold_nil]
    constructor
    · intro h
      exact Or.inl ⟨(Option.some_inj.mp h).symm, by simp⟩
    · rintro (⟨rfl, _⟩ | ⟨l1, l2, hsplit, _⟩)
      · rfl
      · exact absurd hsplit (by simp)
  | cons x xs ih =>
    rw [firstMaxFold_cons_some]
    by_cases hx : x.created_at > c.created_at
    · rw [if_pos hx, ih]
      constructor
      · rintro (⟨rfl, hall⟩ | ⟨l1, l2, rfl, hce, h1, h2⟩)
        · exact Or.inr ⟨[], xs, rfl, hx, by simp, hall⟩
        · exact Or.inr ⟨x :: l1, l2, rfl, lt_trans hx hce,
            fun y hy => by
              rcases List.mem_cons.mp hy with rfl | hy
              · exact hce
              · exact h1 y hy, h2⟩
      · rintro (⟨rfl, hall⟩ | ⟨l1, l2, hsplit, hce, h1, h2⟩)
        · exact absurd (hall x (List.mem_cons_self _ _)) (not_le.mpr hx)
        · cases l1 with
          | nil =>
            simp only [List.nil_append, List.cons.injEq] at hsplit
            refine Or.inl ⟨hsplit.1.symm, ?_⟩
            rw [hsplit.1, hsplit.2]
            exact h2
          | cons y l1' =>
            simp only [List.cons_append, List.cons.injEq] at hsplit
            refine Or.inr ⟨l1', l2, hsplit.2, ?_, fun z hz => h1 z (by simp [hz]), h2⟩
            have hye := h1 y (List.mem_cons_self _ _)
            rw [hsplit.1]
            exact hye
    · rw [if_neg hx, ih]
      have hxle : x.created_at ≤ c.created_at := not_lt.mp hx
      constructor
      · rintro (⟨rfl, hall⟩ | ⟨l1, l2, rfl, hce, h1, h2⟩)
        · refine Or.inl ⟨rfl, fun y hy => ?_⟩
          rcases List.mem_cons.mp hy with rfl | hy
          · exact hxle
          · exact hall y hy
        · exact Or.inr ⟨x :: l1, l2, rfl, hce,
            fun y hy => by
              rcases List.mem_cons.mp hy with rfl | hy
              · exact lt_of_le_of_lt hxle hce
              · exact h1 y hy, h2⟩
      · rintro (⟨rfl, hall⟩ | ⟨l1, l2, hsplit, hce, h1, h2⟩)
        · exact Or.inl ⟨rfl, fun y hy => hall y (List.mem_cons_of_mem _ hy)⟩
        · cases l1 with
          | nil =>
            simp only [List.nil_append, List.cons.injEq] at hsplit
            rw [hsplit.1] at hxle
            exact absurd hce (not_lt.mpr hxle)
          | cons y l1' =>
            simp only [List.cons_append, List.cons.injEq] at hsplit
            exact Or.inr ⟨l1', l2, hsplit.2, hce,
              fun z hz => h1 z (by simp [hz]), h2⟩

theorem firstMaxFold_none_iff (l : List NostrEvent) (e : NostrEvent) :
    firstMaxFold none l = some e ↔
      ∃ l1 l2, l = l1 ++ e :: l2 ∧ (∀ x ∈ l1, x.created_at < e.created_at) ∧
        (∀ x ∈ l2, x.created_at ≤ e.created_at) := by
  cases l with
  | nil =>
    rw [firstMaxFold_nil]
    constructor
    · intro h; cases h
    · rintro ⟨l1, l2, hsplit, _⟩
      exact absurd hsplit (by simp)
  | cons x xs =>
    rw [firstMaxFold_cons_none, firstMaxFold_some_iff]
    constructor
    · rintro (⟨rfl, hall⟩ | ⟨l1, l2, rfl, hce, h1, h2⟩)
      · exact ⟨[], xs, rfl, by simp, hall⟩
      · exact ⟨x :: l1, l2, rfl,
          fun y hy => by
            rcases List.mem_cons.mp hy with rfl | hy
            · exact hce
            · exact h1 y hy, h2⟩
    · rintro ⟨l1, l2, hsplit, h1, h2⟩
      cases l1 with
      | nil =>
        simp only [List.nil_append, List.cons.injEq] at hsplit
        refine Or.inl ⟨hsplit.1.symm, ?_⟩
        rw [hsplit.1, hsplit.2]
        exact h2
      | cons y l1' =>
        simp only [List.cons_append, List.cons.injEq] at hsplit
        refine Or.inr ⟨l1', l2, hsplit.2, ?_,
          fun z hz => h1 z (by simp [hz]), h2⟩
        have hye := h1 y (List.mem_cons_self _ _)
        rw [hsplit.1]
        exact hye

theorem foldl_insertLatest_of_nodup :
    ∀ (l acc : List NostrEvent), ((acc ++ l).map (·.pubkey)).Nodup →
      l.foldl insertLatest acc = acc ++ l := by
  intro l
  induction l with
  | nil => intro acc _; simp
  | cons e es ih =>
    intro acc hnd
    rw [List.foldl_cons]
    have hany : acc.any (·.pubkey == e.pubkey) = false := by
      rw [List.any_eq_false]
      intro x hx hpx
      have heq : x.pubkey = e.pubkey := by simpa using hpx
      rw [List.map_append, List.nodup_append] at hnd
      have hm1 : x.pubkey ∈ acc.map (·.pubkey) := List.mem_map_of_mem _ hx
      have hm2 : x.pubkey ∈ (e :: es).map (·.pubkey) := by
        rw [heq]
        exact List.mem_map_of_mem _ (List.mem_cons_self _ _)
      exact hnd.2.2 hm1 hm2
    rw [insertLatest, if_neg (by simp [hany])]
    rw [ih (acc ++ [e]) (by simpa using hnd)]
    simp

theorem dedupLatest_idem (evs : List NostrEvent) :
    dedupLatest (dedupLatest evs) = dedupLatest evs := by
  conv_lhs => rw [dedupLatest]
  rw [foldl_insertLatest_of_nodup (dedupLatest evs) []
    (by simpa using dedupLatest_nodup evs)]
  simp

theorem insertLatest_length (acc : List NostrEvent) (e : NostrEvent) :
    acc.length ≤ (insertLatest acc e).length := by
  unfold insertLatest
  by_cases hany : acc.any (·.pubkey == e.pubkey)
  · rw [if_pos hany, List.length_map]
  · rw [if_neg hany, List.length_append]
    omega

theorem foldl_insertLatest_length :
    ∀ (l acc : List NostrEvent), acc.length ≤ (l.foldl insertLatest acc).length := by
  intro l
  induction l with
  | nil => intro acc; simp
  | cons e es ih =>
    intro acc
    rw [List.foldl_cons]
    exact le_trans (insertLatest_length acc e) (ih _)

theorem dedupLatest_ne_nil {evs : List NostrEvent} (h : evs ≠ []) :
    dedupLatest evs ≠ [] := by
  cases evs with
  | nil => exact absurd rfl h
  | cons e es =>
    rw [dedupLatest, List.foldl_cons]
    intro hnil
    have h1 := foldl_insertLatest_length es (insertLatest [] e)
    rw [hnil] at h1
    simp [insertLatest] at h1

theorem ingestEvents_dedup (g : FollowsTable) (evs : List NostrEvent) :
    ingestEvents g (dedupLatest evs) = ingestEvents g evs := by
  by_cases hnil : evs = []
  · subst hnil; rfl
  · rw [ingestEvents, ingestEvents]
    have h1 : evs.isEmpty = false := by simpa [List.isEmpty_iff] using hnil
    have h2 : (dedupLatest evs).isEmpty = false := by
      simpa [List.isEmpty_iff] using dedupLatest_ne_nil hnil
    simp only [h1, h2, Bool.false_eq_true, if_false, dedupLatest_idem]

/-- C7: per-author deduplication is deterministic: the latest-event map
retains for each author exactly the event with the greatest created_at,
first in input order among ties (characterized as a split of the
author's events with strictly earlier events before and no later event
after), and the batch processed after deduplication is the deduplicated
batch itself, so only the retained event determines the author's edges. -/
theorem dedup_retains_latest_first (evs : List NostrEvent) (F : PubKey)
    (e : NostrEvent) (g : FollowsTable) :
    ((dedupLatest evs).find? (·.pubkey == F) = some e ↔
      ∃ l1 l2, authorEvents F evs = l1 ++ e :: l2 ∧
        (∀ x ∈ l1, x.created_at < e.created_at) ∧
        (∀ x ∈ l2, x.created_at ≤ e.created_at)) ∧
    ingestEvents g (dedupLatest evs) = ingestEvents g evs := by
  constructor
  · rw [dedupLatest_find, firstMaxFold_none_iff]
  · exact ingestEvents_dedup g evs

theorem dedup_retains_latest_first_witness :
    (dedupLatest [mkEvent pka 1000 [pkb], mkEvent pka 2000 [pkc],
        mkEvent pkb 500 [pka], mkEvent pka 2000 [pkd]]).find?
      (·.pubkey == pka) = some (mkEvent pka 2000 [pkc]) :=
  (dedup_retains_latest_first
      [mkEvent pka 1000 [pkb], mkEvent pka 2000 [pkc],
        mkEvent pkb 500 [pka], mkEvent pka 2000 [pkd]] pka
      (mkEvent pka 2000 [pkc]) []).1.mpr
    ⟨[mkEvent pka 1000 [pkb]], [mkEvent pka 2000 [pkd]], by decide⟩

/-! ## Claim C1 and C8 machinery: the shape of a processed batch -/

theorem parseFollowsOf_follower {e : NostrEvent} {f : Follow}
    (h : f ∈ parseFollowsOf e) : f.follower = e.pubkey := by
  rw [parseFollowsOf, List.mem_filterMap] at h
  rcases h with ⟨tag, _, htag⟩
  split at htag
  · split at htag
    · rw [Option.some_inj] at htag
      rw [← htag]
    · exact absurd htag (by simp)
  · exact absurd htag (by simp)

theorem dedupFollowsAux_subset {f : Follow} :
    ∀ (seen : List (PubKey × PubKey)) (l : List Follow),
    f ∈ dedupFollowsAux seen l → f ∈ l := by
  intro seen l
  induction l generalizing seen with
  | nil => intro h; exact absurd h (by simp [dedupFollowsAux])
  | cons x xs ih =>
    intro h
    rw [dedupFollowsAux] at h
    by_cases hc : seen.contains (x.follower, x.followed)
    · rw [if_pos hc] at h
      exact List.mem_cons_of_mem _ (ih seen h)
    · rw [if_neg hc] at h
      rcases List.mem_cons.mp h with rfl | h
      · exact List.mem_cons_self _ _
      · exact List.mem_cons_of_mem _ (ih _ h)

theorem dedupFollowRows_eq_nil_iff (l : List Follow) :
    dedupFollowRows l = [] ↔ l = [] := by
  cases l with
  | nil => simp [dedupFollowRows, dedupFollowsAux]
  | cons x xs =>
    simp [dedupFollowRows, dedupFollowsAux]

theorem dedupFollowsAux_congr :
    ∀ (s1 s2 : List (PubKey × PubKey)) (l : List Follow),
    (∀ f ∈ l, ((f.follower, f.followed) ∈ s1 ↔ (f.follower, f.followed) ∈ s2)) →
    dedupFollowsAux s1 l = dedupFollowsAux s2 l := by
  intro s1 s2 l
  induction l generalizing s1 s2 with
  | nil => intro _; rfl
  | cons x xs ih =>
    intro h
    rw [dedupFollowsAux, dedupFollowsAux]
    have hx := h x (List.mem_cons_self _ _)
    by_cases hc : s1.contains (x.follower, x.followed)
    · have hc2 : s2.contains (x.follower, x.followed) = true := by
        have hmm : (x.follower, x.followed) ∈ s1 := by simpa using hc
        simpa using hx.mp hmm
      rw [if_pos hc, if_pos hc2]
      exact ih s1 s2 (fun f hf => h f (List.mem_cons_of_mem _ hf))
    · have hc2 : s2.contains (x.follower, x.followed) = false := by
        rw [← Bool.not_eq_true]
        intro hcc
        exact hc (by simpa using hx.mpr (by simpa using hcc))
      rw [if_neg hc, if_neg (by rw [hc2]; simp)]
      congr 1
      refine ih _ _ (fun f hf => ?_)
      constructor
      · intro hm
        rcases List.mem_cons.mp hm with heq | hm
        · exact heq ▸ List.mem_cons_self _ _
        · exact List.mem_cons_of_mem _ ((h f (List.mem_cons_of_mem _ hf)).mp hm)
      · intro hm
        rcases List.mem_cons.mp hm with heq | hm
        · exact heq ▸ List.mem_cons_self _ _
        · exact List.mem_cons_of_mem _ ((h f (List.mem_cons_of_mem _ hf)).mpr hm)

theorem innerFold (fs : List Follow) :
    ∀ (seen : List (PubKey × PubKey)) (uniq : List Follow),
    fs.foldl (fun (p : List (PubKey × PubKey) × List Follow) f =>
        if p.1.contains (f.follower, f.followed) then p
        else ((f.follower, f.followed) :: p.1, p.2 ++ [f])) (seen, uniq) =
      ((fs.foldl (fun (p : List (PubKey × PubKey) × List Follow) f =>
        if p.1.contains (f.follower, f.followed) then p
        else ((f.follower, f.followed) :: p.1, p.2 ++ [f])) (seen, uniq)).1,
       uniq ++ dedupFollowsAux seen fs) ∧
    ∀ k, k ∈ (fs.foldl (fun (p : List (PubKey × PubKey) × List Follow) f =>
        if p.1.contains (f.follower, f.followed) then p
        else ((f.follower, f.followed) :: p.1, p.2 ++ [f])) (seen, uniq)).1 ↔
      k ∈ seen ∨ ∃ f ∈ fs, k = (f.follower, f.followed) := by
  induction fs with
  | nil =>
    intro seen uniq
    refine ⟨by simp [dedupFollowsAux], fun k => by simp⟩
  | cons f fs ih =>
    intro seen uniq
    simp only [List.foldl_cons]
    by_cases hc : seen.contains (f.follower, f.followed)
    · rw [if_pos hc]
      rcases ih seen uniq with ⟨h1, h2⟩
      constructor
      · rw [h1, dedupFollowsAux, if_pos hc]
      · intro k
        rw [h2 k]
        constructor
        · rintro (hk | ⟨g, hg, rfl⟩)
          · exact Or.inl hk
          · exact Or.inr ⟨g, List.mem_cons_of_mem _ hg, rfl⟩
        · rintro (hk | ⟨g, hg, rfl⟩)
          · exact Or.inl hk
          · rcases List.mem_cons.mp hg with rfl | hg
            · exact Or.inl (by simpa using hc)
            · exact Or.inr ⟨g, hg, rfl⟩
    · rw [if_neg hc]
      rcases ih ((f.follower, f.followed) :: seen) (uniq ++ [f]) with ⟨h1, h2⟩
      constructor
      · rw [h1, dedupFollowsAux, if_neg hc]
        simp
      · intro k
        rw [h2 k]
        constructor
        · rintro (hk | ⟨g, hg, rfl⟩)
          · rcases List.mem_cons.mp hk with rfl | hk
            · exact Or.inr ⟨f, List.mem_cons_self _ _, rfl⟩
            · exact Or.inl hk
          · exact Or.inr ⟨g, List.mem_cons_of_mem _ hg, rfl⟩
        · rintro (hk | ⟨g, hg, rfl⟩)
          · exact Or.inl (List.mem_cons_of_mem _ hk)
          · rcases List.mem_cons.mp hg with rfl | hg
            · exact Or.inl (List.mem_cons_self _ _)
            · exact Or.inr ⟨g, hg, rfl⟩

theorem batchStep_eq {e : NostrEvent} (h3 : e.kind = 3)
    (acc : List (PubKey × PubKey) × List Follow × List PubKey) :
    batchStep acc e =
      if (parseFollowsOf e).isEmpty then .ok acc
      else
        .ok (((parseFollowsOf e).foldl
            (fun (p : List (PubKey × PubKey) × List Follow) f =>
              if p.1.contains (f.follower, f.followed) then p
              else ((f.follower, f.followed) :: p.1, p.2 ++ [f]))
            (acc.1, acc.2.1)).1,
          acc.2.1 ++ dedupFollowsAux acc.1 (parseFollowsOf e),
          if acc.2.2.contains e.pubkey then acc.2.2 else acc.2.2 ++ [e.pubkey]) := by
  rw [batchStep, parseKind3Event, validateKind3Event, if_neg (by simp [h3])]
  rcases innerFold (parseFollowsOf e) acc.1 acc.2.1 with ⟨h1, _⟩
  by_cases hfs : (parseFollowsOf e).isEmpty
  · simp only [okBind, pureEq, Except.bind, bind, pure, Except.pure, hfs, if_true]
  · simp only [okBind, pureEq, Except.bind, bind, pure, Except.pure, hfs,
      Bool.false_eq_true, if_false]
    rw [h1]

theorem rowsOfBatch_cons (e : NostrEvent) (es : List NostrEvent) :
    rowsOfBatch (e :: es) =
      dedupFollowRows (parseFollowsOf e) ++ rowsOfBatch es := by
  simp only [rowsOfBatch, List.flatMap_cons]

theorem delOfBatch_cons_none {e : NostrEvent} (es : List NostrEvent)
    (h : parseFollowsOf e = []) : delOfBatch (e :: es) = delOfBatch es := by
  simp only [delOfBatch, List.filterMap_cons, h, List.isEmpty_nil, if_true]

theorem delOfBatch_cons_some {e : NostrEvent} (es : List NostrEvent)
    (h : (parseFollowsOf e).isEmpty = false) :
    delOfBatch (e :: es) = e.pubkey :: delOfBatch es := by
  simp only [delOfBatch, List.filterMap_cons, h, Bool.false_eq_true, if_false]

theorem batchFold (evs : List NostrEvent) :
    ∀ (acc : List (PubKey × PubKey) × List Follow × List PubKey),
    (∀ e ∈ evs, e.kind = 3) →
    ((evs.map (·.pubkey)).Nodup) →
    (∀ k ∈ acc.1, ∀ e ∈ evs, k.1 ≠ e.pubkey) →
    ∃ seen2 del2,
      evs.foldlM batchStep acc = .ok (seen2, acc.2.1 ++ rowsOfBatch evs, del2) ∧
      (∀ k ∈ seen2, k ∈ acc.1 ∨ ∃ e ∈ evs, k.1 = e.pubkey) ∧
      (∀ x, x ∈ del2 ↔ x ∈ acc.2.2 ∨ x ∈ delOfBatch evs) := by
  induction evs with
  | nil =>
    intro acc _ _ _
    refine ⟨acc.1, acc.2.2, ?_, fun k hk => Or.inl hk, fun x => by simp [delOfBatch]⟩
    simp [List.foldlM, rowsOfBatch, pure, Except.pure]
  | cons e es ih =>
    intro acc h3 hnd hdis
    have h3e : e.kind = 3 := h3 e (List.mem_cons_self _ _)
    rw [List.foldlM_cons, batchStep_eq h3e]
    simp only [List.map_cons, List.nodup_cons] at hnd
    by_cases hfs : (parseFollowsOf e).isEmpty
    · rw [if_pos hfs, okBind]
      have hfs' : parseFollowsOf e = [] := by simpa [List.isEmpty_iff] using hfs
      rcases ih acc (fun x hx => h3 x (List.mem_cons_of_mem _ hx)) hnd.2
        (fun k hk x hx => hdis k hk x (List.mem_cons_of_mem _ hx)) with
        ⟨seen2, del2, hfold, hseen, hdel⟩
      refine ⟨seen2, del2, ?_, ?_, ?_⟩
      · rw [hfold, rowsOfBatch_cons, hfs']
        rw [show dedupFollowRows [] = [] from rfl, List.nil_append]
      · intro k hk
        rcases hseen k hk with hk | ⟨x, hx, hkx⟩
        · exact Or.inl hk
        · exact Or.inr ⟨x, List.mem_cons_of_mem _ hx, hkx⟩
      · intro x
        rw [delOfBatch_cons_none es hfs']
        exact hdel x
    · rw [if_neg hfs, okBind]
      have hpairs : ∀ f ∈ parseFollowsOf e, (f.follower, f.followed) ∉ acc.1 := by
        intro f hf hmem
        have hne := hdis _ hmem e (List.mem_cons_self _ _)
        exact hne (parseFollowsOf_follower hf)
      rcases innerFold (parseFollowsOf e) acc.1 acc.2.1 with ⟨_, hmem⟩
      have hded : dedupFollowsAux acc.1 (parseFollowsOf e) =
          dedupFollowRows (parseFollowsOf e) := by
        rw [dedupFollowRows]
        exact dedupFollowsAux_congr acc.1 [] (parseFollowsOf e)
          (fun f hf => by simp [hpairs f hf])
      have hdis2 : ∀ k ∈ ((parseFollowsOf e).foldl
          (fun (p : List (PubKey × PubKey) × List Follow) f =>
            if p.1.contains (f.follower, f.followed) then p
            else ((f.follower, f.followed) :: p.1, p.2 ++ [f]))
          (acc.1, acc.2.1)).1, ∀ x ∈ es, k.1 ≠ x.pubkey := by
        intro k hk x hx
        rcases (hmem k).mp hk with hk | ⟨f, hf, rfl⟩
        · exact hdis k hk x (List.mem_cons_of_mem _ hx)
        · rw [parseFollowsOf_follower hf]
          intro hEq
          apply hnd.1
          rw [show e.pubkey = x.pubkey from hEq]
          exact List.mem_map_of_mem _ hx
      rcases ih (((parseFollowsOf e).foldl
          (fun (p : List (PubKey × PubKey) × List Follow) f =>
            if p.1.contains (f.follower, f.followed) then p
            else ((f.follower, f.followed) :: p.1, p.2 ++ [f]))
          (acc.1, acc.2.1)).1,
          acc.2.1 ++ dedupFollowsAux acc.1 (parseFollowsOf e),
          if acc.2.2.contains e.pubkey then acc.2.2 else acc.2.2 ++ [e.pubkey])
          (fun x hx => h3 x (List.mem_cons_of_mem _ hx)) hnd.2 hdis2 with
        ⟨seen2, del2, hfold, hseen, hdel⟩
      refine ⟨seen2, del2, ?_, ?_, ?_⟩
      · rw [hfold, rowsOfBatch_cons, hded, List.append_assoc]
      · intro k hk
        rcases hseen k hk with hk | ⟨x, hx, hkx⟩
        · rcases (hmem k).mp hk with hk | ⟨f, hf, rfl⟩
          · exact Or.inl hk
          · exact Or.inr ⟨e, List.mem_cons_self _ _, parseFollowsOf_follower hf⟩
        · exact Or.inr ⟨x, List.mem_cons_of_mem _ hx, hkx⟩
      · intro x
        rw [delOfBatch_cons_some es (by simpa using hfs), hdel x]
        by_cases hcont : acc.2.2.contains e.pubkey
        · rw [if_pos hcont]
          constructor
          · rintro (hx | hx)
            · exact Or.inl hx
            · exact Or.inr (List.mem_cons_of_mem _ hx)
          · rintro (hx | hx)
            · exact Or.inl hx
            · rcases List.mem_cons.mp hx with rfl | hx
              · exact Or.inl (by simpa using hcont)
              · exact Or.inr hx
        · rw [if_neg hcont]
          constructor
          · rintro (hx | hx)
            · rcases List.mem_append.mp hx with hx | hx
              · exact Or.inl hx
              · refine Or.inr ?_
                rcases List.mem_singleton.mp hx with rfl
                exact List.mem_cons_self _ _
            · exact Or.inr (List.mem_cons_of_mem _ hx)
          · rintro (hx | hx)
            · exact Or.inl (List.mem_append.mpr (Or.inl hx))
            · rcases List.mem_cons.mp hx with rfl | hx
              · exact Or.inl (List.mem_append.mpr (Or.inr (List.mem_singleton.mpr rfl)))
              · exact Or.inr hx

theorem rowsOfBatch_follower {evs : List NostrEvent} {f : Follow}
    (h : f ∈ rowsOfBatch evs) : f.follower ∈ delOfBatch evs := by
  rw [rowsOfBatch, List.mem_flatMap] at h
  rcases h with ⟨e, he, hf⟩
  have hfe : f ∈ parseFollowsOf e := dedupFollowsAux_subset [] _ hf
  have hne : (parseFollowsOf e).isEmpty = false := by
    rcases hp : parseFollowsOf e with _ | ⟨x, xs⟩
    · rw [hp] at hfe; exact absurd hfe (by simp)
    · rfl
  rw [delOfBatch, List.mem_filterMap]
  refine ⟨e, he, ?_⟩
  rw [hne, parseFollowsOf_follower hfe]
  rfl

theorem delOfBatch_mem {evs : List NostrEvent} {x : PubKey} :
    x ∈ delOfBatch evs ↔ ∃ e ∈ evs, e.pubkey = x ∧ parseFollowsOf e ≠ [] := by
  rw [delOfBatch, List.mem_filterMap]
  constructor
  · rintro ⟨e, he, hx⟩
    by_cases hp : (parseFollowsOf e).isEmpty
    · rw [if_pos hp] at hx
      exact absurd hx (by simp)
    · rw [if_neg hp, Option.some_inj] at hx
      exact ⟨e, he, hx, by simpa [List.isEmpty_iff] using hp⟩
  · rintro ⟨e, he, hx, hp⟩
    refine ⟨e, he, ?_⟩
    rw [if_neg (by simpa [List.isEmpty_iff] using hp), hx]

theorem filter_true_of_all (g : FollowsTable) (p : Follow → Bool)
    (h : ∀ f ∈ g, p f = true) : g.filter p = g :=
  List.filter_eq_self.mpr h

theorem processEventBatch_shape (g : FollowsTable) (evs : List NostrEvent)
    (h3 : ∀ e ∈ evs, e.kind = 3) (hnd : (evs.map (·.pubkey)).Nodup) :
    processEventBatch g evs =
      .ok (g.filter (fun f => !(delOfBatch evs).contains f.follower) ++
        rowsOfBatch evs) := by
  by_cases hnil : evs = []
  · subst hnil
    rw [processEventBatch]
    simp only [List.isEmpty_nil, if_true]
    rw [filter_true_of_all g _ (fun f _ => by simp [delOfBatch])]
    simp [rowsOfBatch, pure, Except.pure]
  · rw [processEventBatch]
    rw [if_neg (by simpa [List.isEmpty_iff] using hnil)]
    rcases batchFold evs ([], [], []) h3 hnd (by simp) with
      ⟨seen2, del2, hfold, _, hdel⟩
    rw [hfold, okBind]
    simp only [List.nil_append]
    by_cases hrows : (rowsOfBatch evs).isEmpty
    · rw [if_pos hrows]
      have hrows2 : rowsOfBatch evs = [] := by simpa [List.isEmpty_iff] using hrows
      have hdel2 : delOfBatch evs = [] := by
        rw [List.eq_nil_iff_forall_not_mem]
        intro x hx
        rcases delOfBatch_mem.mp hx with ⟨e, he, _, hp⟩
        rcases hq : parseFollowsOf e with _ | ⟨y, ys⟩
        · exact hp hq
        · have hblock : dedupFollowRows (parseFollowsOf e) ≠ [] := by
            rw [hq]
            simp [dedupFollowRows, dedupFollowsAux]
          rcases hr : dedupFollowRows (parseFollowsOf e) with _ | ⟨z, zs⟩
          · exact hblock hr
          · have hz : z ∈ rowsOfBatch evs := by
              rw [rowsOfBatch, List.mem_flatMap]
              refine ⟨e, he, ?_⟩
              rw [hr]
              exact List.mem_cons_self _ _
            rw [hrows2] at hz
            exact absurd hz (by simp)
      rw [hrows2, hdel2]
      rw [filter_true_of_all g _ (fun f _ => by simp)]
      simp [pure, Except.pure, bind, Except.bind]
    · rw [if_neg hrows]
      have hfeq : g.filter (fun f => !del2.contains f.follower) =
          g.filter (fun f => !(delOfBatch evs).contains f.follower) := by
        apply List.filter_congr
        intro f _
        have hcnt : (del2.contains f.follower) =
            ((delOfBatch evs).contains f.follower) := by
          by_cases hm : f.follower ∈ delOfBatch evs
          · have h1 : del2.contains f.follower = true := by
              simpa using (hdel f.follower).mpr (Or.inr hm)
            have h2 : (delOfBatch evs).contains f.follower = true := by simpa using hm
            rw [h1, h2]
          · have h1 : del2.contains f.follower = false := by
              rw [← Bool.not_eq_true]
              intro hc
              rcases (hdel f.follower).mp (by simpa using hc) with hc | hc
              · exact absurd hc (by simp)
              · exact hm hc
            have h2 : (delOfBatch evs).contains f.follower = false := by
              rw [← Bool.not_eq_true]
              intro hc
              exact hm (by simpa using hc)
            rw [h1, h2]
        rw [hcnt]
      rw [← hfeq]
      rfl

theorem filter_filter_absorb (g : FollowsTable) (p q : Follow → Bool)
    (h : ∀ f, q f = true → p f = true) : (g.filter p).filter q = g.filter q := by
  induction g with
  | nil => rfl
  | cons x xs ih =>
    by_cases hq : q x
    · rw [List.filter_cons_of_pos (h x hq), List.filter_cons_of_pos hq,
        List.filter_cons_of_pos hq, ih]
    · by_cases hp : p x
      · rw [List.filter_cons_of_pos hp, List.filter_cons_of_neg (by simpa using hq),
          List.filter_cons_of_neg (by simpa using hq), ih]
      · rw [List.filter_cons_of_neg (by simpa using hp),
          List.filter_cons_of_neg (by simpa using hq), ih]

theorem delOfBatch_append (l1 l2 : List NostrEvent) :
    delOfBatch (l1 ++ l2) = delOfBatch l1 ++ delOfBatch l2 := by
  simp only [delOfBatch]
  rw [List.filterMap_append]

theorem rowsOfBatch_append (l1 l2 : List NostrEvent) :
    rowsOfBatch (l1 ++ l2) = rowsOfBatch l1 ++ rowsOfBatch l2 := by
  simp only [rowsOfBatch]
  rw [List.flatMap_append]

theorem delOfBatch_subset {evs : List NostrEvent} {x : PubKey}
    (h : x ∈ delOfBatch evs) : x ∈ evs.map (·.pubkey) := by
  rcases delOfBatch_mem.mp h with ⟨e, he, heq, _⟩
  rw [← heq]
  exact List.mem_map_of_mem _ he

theorem filter_not_contains_append (g : FollowsTable) (D1 D2 : List PubKey) :
    (g.filter (fun f => !D1.contains f.follower)).filter
        (fun f => !D2.contains f.follower) =
      g.filter (fun f => !(D1 ++ D2).contains f.follower) := by
  induction g with
  | nil => rfl
  | cons x xs ih =>
    by_cases h1 : x.follower ∈ D1
    · rw [List.filter_cons_of_neg (by simp [h1]),
        List.filter_cons_of_neg (by simp [List.mem_append, h1])]
      exact ih
    · rw [List.filter_cons_of_pos (by simp [h1])]
      by_cases h2 : x.follower ∈ D2
      · rw [List.filter_cons_of_neg (by simp [h2]),
          List.filter_cons_of_neg (by simp [List.mem_append, h2])]
        exact ih
      · rw [List.filter_cons_of_pos (by simp [h2]),
          List.filter_cons_of_pos (by simp [List.mem_append, h1, h2]), ih]

theorem foldChunks_shape : ∀ (cs : List (List NostrEvent)) (g : FollowsTable),
    (∀ c ∈ cs, ∀ e ∈ c, e.kind = 3) →
    ((cs.flatten.map (·.pubkey)).Nodup) →
    cs.foldlM processEventBatch g =
      .ok (g.filter (fun f => !(delOfBatch cs.flatten).contains f.follower) ++
        rowsOfBatch cs.flatten) := by
  intro cs
  induction cs with
  | nil =>
    intro g _ _
    rw [filter_true_of_all g _ (fun f _ => by simp [delOfBatch])]
    simp [List.foldlM, rowsOfBatch, pure, Except.pure]
  | cons c cs ih =>
    intro g h3 hnd
    rw [List.flatten_cons, List.map_append, List.nodup_append] at hnd
    rw [List.foldlM_cons,
      processEventBatch_shape g c (h3 c (List.mem_cons_self _ _)) hnd.1, okBind,
      ih _ (fun x hx => h3 x (List.mem_cons_of_mem _ hx)) hnd.2.1]
    congr 1
    have hRc : (rowsOfBatch c).filter
        (fun f => !(delOfBatch cs.flatten).contains f.follower) = rowsOfBatch c := by
      apply filter_true_of_all
      intro f hf
      have h1 : f.follower ∈ c.map (·.pubkey) :=
        delOfBatch_subset (rowsOfBatch_follower hf)
      have h2 : f.follower ∉ delOfBatch cs.flatten := by
        intro hmem
        exact hnd.2.2 h1 (delOfBatch_subset hmem)
      simp [h2]
    rw [List.filter_append, hRc, filter_not_contains_append,
      List.flatten_cons, delOfBatch_append, rowsOfBatch_append,
      List.append_assoc]

theorem chunksAux_flatten (n : Nat) (hn : 0 < n) :
    ∀ (fuel : Nat) (l : List NostrEvent), l.length ≤ fuel →
    (chunksAux n fuel l).flatten = l := by
  intro fuel
  induction fuel with
  | zero =>
    intro l hl
    have h0 : l = [] := List.eq_nil_of_length_eq_zero (Nat.le_zero.mp hl)
    subst h0
    rfl
  | succ m ih =>
    intro l hl
    cases l with
    | nil => rfl
    | cons x xs =>
      rw [show chunksAux n (m + 1) (x :: xs) =
          (x :: xs).take n :: chunksAux n m ((x :: xs).drop n) from rfl]
      rw [List.flatten_cons, ih ((x :: xs).drop n) (by
        rw [List.length_drop]
        simp only [List.length_cons] at hl ⊢
        omega)]
      exact List.take_append_drop n (x :: xs)

theorem chunksOf_flatten (n : Nat) (hn : 0 < n) (l : List NostrEvent) :
    (chunksOf n l).flatten = l :=
  chunksAux_flatten n hn l.length l le_rfl

theorem insertLatest_mem {y : NostrEvent} (acc : List NostrEvent) (e : NostrEvent)
    (h : y ∈ insertLatest acc e) : y ∈ acc ∨ y = e := by
  unfold insertLatest at h
  by_cases hany : acc.any (·.pubkey == e.pubkey)
  · rw [if_pos hany] at h
    rcases List.mem_map.mp h with ⟨x, hx, hxy⟩
    by_cases hc : (x.pubkey == e.pubkey && decide (e.created_at > x.created_at)) = true
    · rw [if_pos hc] at hxy
      exact Or.inr hxy.symm
    · rw [if_neg hc] at hxy
      exact Or.inl (hxy ▸ hx)
  · rw [if_neg hany] at h
    rcases List.mem_append.mp h with h | h
    · exact Or.inl h
    · exact Or.inr (List.mem_singleton.mp h)

theorem foldl_insertLatest_mem {y : NostrEvent} :
    ∀ (l acc : List NostrEvent), y ∈ l.foldl insertLatest acc →
      y ∈ acc ∨ y ∈ l := by
  intro l
  induction l with
  | nil =>
    intro acc h
    exact Or.inl h
  | cons e es ih =>
    intro acc h
    rw [List.foldl_cons] at h
    rcases ih _ h with h | h
    · rcases insertLatest_mem acc e h with h | rfl
      · exact Or.inl h
      · exact Or.inr (List.mem_cons_self _ _)
    · exact Or.inr (List.mem_cons_of_mem _ h)

theorem dedupLatest_subset {y : NostrEvent} {evs : List NostrEvent}
    (h : y ∈ dedupLatest evs) : y ∈ evs := by
  rcases foldl_insertLatest_mem evs [] h with h | h
  · exact absurd h (by simp)
  · exact h

theorem ingestEvents_shape (g : FollowsTable) (evs : List NostrEvent)
    (h3 : ∀ e ∈ evs, e.kind = 3) :
    ingestEvents g evs =
      .ok (g.filter (fun f =>
          !(delOfBatch (dedupLatest evs)).contains f.follower) ++
        rowsOfBatch (dedupLatest evs)) := by
  by_cases hnil : evs = []
  · subst hnil
    rw [ingestEvents]
    simp only [List.isEmpty_nil, if_true]
    rw [show dedupLatest [] = [] from rfl]
    rw [filter_true_of_all g _ (fun f _ => by simp [delOfBatch])]
    show Except.ok g = _
    rw [show rowsOfBatch [] = [] from rfl, List.append_nil]
  · rw [ingestEvents, if_neg (by simpa [List.isEmpty_iff] using hnil)]
    have hfl : (chunksOf 250 (dedupLatest evs)).flatten = dedupLatest evs :=
      chunksOf_flatten 250 (by omega) _
    have hh3 : ∀ c ∈ chunksOf 250 (dedupLatest evs), ∀ e ∈ c, e.kind = 3 := by
      intro c hc e he
      refine h3 e (dedupLatest_subset ?_)
      rw [← hfl]
      exact List.mem_flatten.mpr ⟨c, hc, he⟩
    have hhnd : ((chunksOf 250 (dedupLatest evs)).flatten.map
        (·.pubkey)).Nodup := by
      rw [hfl]
      exact dedupLatest_nodup evs
    rw [foldChunks_shape _ g hh3 hhnd, hfl]
    rfl

/-! ## Claim C1: the stored out-edges after a sequence of ingestions -/

theorem rows_filter_of_none (l : List NostrEvent) (F : PubKey)
    (hnone : ∀ e ∈ l, e.pubkey ≠ F) :
    (rowsOfBatch l).filter (·.follower == F) = [] := by
  rw [List.filter_eq_nil_iff]
  intro f hf
  have h1 := delOfBatch_subset (rowsOfBatch_follower hf)
  rcases List.mem_map.mp h1 with ⟨e, he, heq⟩
  have hne := hnone e he
  rw [heq] at hne
  simpa using hne

theorem block_followers {x : NostrEvent} {f : Follow}
    (hf : f ∈ dedupFollowRows (parseFollowsOf x)) : f.follower = x.pubkey :=
  parseFollowsOf_follower (dedupFollowsAux_subset [] _ hf)

theorem rows_filter_author : ∀ (l : List NostrEvent), ∀ (F : PubKey),
    ((l.map (·.pubkey)).Nodup) → ∀ (e : NostrEvent),
    l.find? (·.pubkey == F) = some e →
    (rowsOfBatch l).filter (·.follower == F) =
      dedupFollowRows (parseFollowsOf e) := by
  intro l
  induction l with
  | nil =>
    intro F _ e hfind
    cases hfind
  | cons x xs ih =>
    intro F hnd e hfind
    rw [rowsOfBatch_cons, List.filter_append]
    simp only [List.map_cons, List.nodup_cons] at hnd
    by_cases hx : x.pubkey = F
    · have hbx : (x.pubkey == F) = true := by simpa using hx
      rw [findq_cons, if_pos hbx, Option.some_inj] at hfind
      subst hfind
      have hxs : (rowsOfBatch xs).filter (·.follower == F) = [] := by
        apply rows_filter_of_none
        intro y hy hEq
        apply hnd.1
        rw [hx, ← hEq]
        exact List.mem_map_of_mem _ hy
      have hblock : (dedupFollowRows (parseFollowsOf x)).filter
          (·.follower == F) = dedupFollowRows (parseFollowsOf x) := by
        apply filter_true_of_all
        intro f hf
        rw [block_followers hf]
        exact hbx
      rw [hblock, hxs, List.append_nil]
    · have hbx : (x.pubkey == F) = false := by simpa using hx
      rw [findq_cons, if_neg (by simp [hbx])] at hfind
      have hblock : (dedupFollowRows (parseFollowsOf x)).filter
          (·.follower == F) = [] := by
        rw [List.filter_eq_nil_iff]
        intro f hf
        rw [block_followers hf]
        simp [hx]
      rw [hblock, List.nil_append]
      exact ih F hnd.2 e hfind

theorem outFollows_append (g1 g2 : FollowsTable) (F : PubKey) :
    outFollows (g1 ++ g2) F = outFollows g1 F ++ outFollows g2 F := by
  simp only [outFollows]
  rw [List.filter_append]

theorem authors_eq_of_nodup : ∀ {l : List NostrEvent},
    ((l.map (·.pubkey)).Nodup) → ∀ {a b : NostrEvent}, a ∈ l → b ∈ l →
    a.pubkey = b.pubkey → a = b := by
  intro l
  induction l with
  | nil =>
    intro _ a b ha _ _
    exact absurd ha (by simp)
  | cons x xs ih =>
    intro hnd a b ha hb hab
    simp only [List.map_cons, List.nodup_cons] at hnd
    rcases List.mem_cons.mp ha with ha1 | ha1
    · rcases List.mem_cons.mp hb with hb1 | hb1
      · rw [ha1, hb1]
      · refine absurd ?_ hnd.1
        rw [← ha1, hab]
        exact List.mem_map_of_mem _ hb1
    · rcases List.mem_cons.mp hb with hb1 | hb1
      · refine absurd ?_ hnd.1
        rw [← hb1, ← hab]
        exact List.mem_map_of_mem _ ha1
      · exact ih hnd.2 ha1 hb1 hab

theorem ingest_outFollows (g : FollowsTable) (evs : List NostrEvent) (F : PubKey)
    (h3 : ∀ e ∈ evs, e.kind = 3) :
    ∃ g2, ingestEvents g evs = .ok g2 ∧
      outFollows g2 F = (match effectiveEvent evs F with
        | some e => dedupFollowRows (parseFollowsOf e)
        | none => outFollows g F) := by
  refine ⟨_, ingestEvents_shape g evs h3, ?_⟩
  rw [outFollows_append, effectiveEvent]
  cases hfind : (dedupLatest evs).find? (·.pubkey == F) with
  | none =>
    have hnoF : ∀ e ∈ dedupLatest evs, e.pubkey ≠ F := by
      intro e he hEq
      have hp := List.find?_eq_none.mp hfind e he
      simp [hEq] at hp
    have h2 : outFollows (rowsOfBatch (dedupLatest evs)) F = [] :=
      rows_filter_of_none _ F hnoF
    rw [h2, List.append_nil]
    show outFollows _ F = outFollows g F
    rw [outFollows, outFollows]
    apply filter_filter_absorb
    intro f hf
    have hFf : f.follower = F := by simpa using hf
    have hFd : f.follower ∉ delOfBatch (dedupLatest evs) := by
      intro hmem
      rcases delOfBatch_mem.mp hmem with ⟨e, he, heq, _⟩
      exact hnoF e he (heq.trans hFf)
    simp [hFd]
  | some e =>
    have heF : e.pubkey = F := by
      simpa using List.find?_some hfind
    have heL : e ∈ dedupLatest evs := List.mem_of_find?_eq_some hfind
    by_cases hp : (parseFollowsOf e).isEmpty
    · have hp2 : parseFollowsOf e = [] := by simpa [List.isEmpty_iff] using hp
      show _ ++ _ = (match (if (parseFollowsOf e).isEmpty then none
        else some e) with
        | some e => dedupFollowRows (parseFollowsOf e)
        | none => outFollows g F)
      rw [if_pos hp]
      have h2 : outFollows (rowsOfBatch (dedupLatest evs)) F =
          dedupFollowRows (parseFollowsOf e) :=
        rows_filter_author _ F (dedupLatest_nodup evs) e hfind
      rw [h2, hp2]
      rw [show dedupFollowRows [] = [] from rfl, List.append_nil]
      show outFollows _ F = outFollows g F
      rw [outFollows, outFollows]
      apply filter_filter_absorb
      intro f hf
      have hFf : f.follower = F := by simpa using hf
      have hFd : f.follower ∉ delOfBatch (dedupLatest evs) := by
        intro hmem
        rcases delOfBatch_mem.mp hmem with ⟨e2, he2, heq2, hpe2⟩
        have he2e : e2 = e := by
          apply authors_eq_of_nodup (dedupLatest_nodup evs) he2 heL
          rw [heq2, hFf, heF]
        rw [he2e] at hpe2
        exact hpe2 hp2
      simp [hFd]
    · show _ ++ _ = (match (if (parseFollowsOf e).isEmpty then none
        else some e) with
        | some e => dedupFollowRows (parseFollowsOf e)
        | none => outFollows g F)
      rw [if_neg hp]
      have h2 : outFollows (rowsOfBatch (dedupLatest evs)) F =
          dedupFollowRows (parseFollowsOf e) :=
        rows_filter_author _ F (dedupLatest_nodup evs) e hfind
      rw [h2]
      have hFD : F ∈ delOfBatch (dedupLatest evs) :=
        delOfBatch_mem.mpr ⟨e, heL, heF, by simpa [List.isEmpty_iff] using hp⟩
      have hgpart : outFollows (g.filter (fun f =>
          !(delOfBatch (dedupLatest evs)).contains f.follower)) F = [] := by
        rw [outFollows, List.filter_eq_nil_iff]
        intro f hf
        rcases List.mem_filter.mp hf with ⟨_, hkeep⟩
        intro hFf
        have hFf2 : f.follower = F := by simpa using hFf
        rw [hFf2] at hkeep
        simp [hFD] at hkeep
      rw [hgpart, List.nil_append]

theorem lastEffective_init (F : PubKey) :
    ∀ (cs : List (List NostrEvent)) (acc : Option NostrEvent),
    cs.foldl (fun acc evs =>
      match effectiveEvent evs F with
      | some e => some e
      | none => acc) acc =
      (match lastEffective cs F with
      | some e => some e
      | none => acc) := by
  intro cs
  induction cs with
  | nil =>
    intro acc
    rfl
  | cons c cs ih =>
    intro acc
    rw [List.foldl_cons, ih]
    rw [show lastEffective (c :: cs) F = cs.foldl (fun acc evs =>
      match effectiveEvent evs F with
      | some e => some e
      | none => acc) (match effectiveEvent c F with
        | some e => some e
        | none => none) from rfl, ih]
    cases lastEffective cs F with
    | some e => rfl
    | none => cases effectiveEvent c F <;> rfl

/-- C1: latest-list-wins does not hold as stated: an empty latest list
leaves the previous edges in place, and the retained list is the one of
the last ingestion call whose parsed list is nonempty, not the one with
the greatest created_at across calls.  Ingesting for author a the list
containing b and then the empty list keeps is_direct_follow a b true,
and ingesting the list containing b at t=2000 and then the list
containing c at t=1000 ends with the c edge, not the b edge. -/
theorem latest_list_wins_counterexample :
    (ingestCalls [] [[mkEvent pka 1000 [pkb]], [mkEvent pka 2000 []]]).bind
        (fun g => isDirectFollow g pka pkb) = .ok true ∧
    (ingestCalls [] [[mkEvent pka 2000 [pkb]], [mkEvent pka 1000 [pkc]]]).bind
        (fun g => isDirectFollow g pka pkb) = .ok false ∧
    (ingestCalls [] [[mkEvent pka 2000 [pkb]], [mkEvent pka 1000 [pkc]]]).bind
        (fun g => isDirectFollow g pka pkc) = .ok true := by
  refine ⟨by decide, by decide, by decide⟩

/-- C1 (amended): after any sequence of kind-3 ingestion calls, the
stored out-edges of an author are the deduplicated parsed follows of the
last retained event of that author whose parsed list is nonempty, and
the prior edges when no call retained such an event.  The retained event
of one call is the latest-by-created_at of that call (first on ties). -/
theorem latest_list_wins_amended : ∀ (calls : List (List NostrEvent)),
    ∀ (g g2 : FollowsTable) (F : PubKey),
    (∀ evs ∈ calls, ∀ e ∈ evs, e.kind = 3) →
    ingestCalls g calls = .ok g2 →
    outFollows g2 F = (match lastEffective calls F with
      | some e => dedupFollowRows (parseFollowsOf e)
      | none => outFollows g F) := by
  intro calls
  induction calls with
  | nil =>
    intro g g2 F _ hok
    have hg : g = g2 := by
      have hok2 : (Except.ok g : Except String FollowsTable) = .ok g2 := hok
      simpa using hok2
    subst hg
    rfl
  | cons c cs ih =>
    intro g g2 F h3 hok
    rcases ingest_outFollows g c F (h3 c (List.mem_cons_self _ _)) with
      ⟨g1, hg1, hout1⟩
    rw [ingestCalls, List.foldlM_cons, hg1, okBind] at hok
    have ih2 := ih g1 g2 F (fun evs hevs => h3 evs (List.mem_cons_of_mem _ hevs)) hok
    rw [ih2]
    rw [show lastEffective (c :: cs) F = cs.foldl (fun acc evs =>
      match effectiveEvent evs F with
      | some e => some e
      | none => acc) (match effectiveEvent c F with
        | some e => some e
        | none => none) from rfl, lastEffective_init F cs]
    cases hle : lastEffective cs F with
    | some e => rfl
    | none =>
      rw [hout1]
      cases effectiveEvent c F <;> rfl

theorem latest_list_wins_amended_witness :
    outFollows [⟨pka, pkc, 1000⟩] pka =
      dedupFollowRows (parseFollowsOf (mkEvent pka 1000 [pkc])) := by
  rw [latest_list_wins_amended
    [[mkEvent pka 2000 [pkb]], [mkEvent pka 1000 [pkc]]] []
    [⟨pka, pkc, 1000⟩] pka (by decide) (by decide)]
  decide

/-! ## Claim C8 machinery: convergence of the delta loop -/

theorem lookup_append (l1 l2 : List (PubKey × Nat)) (x : PubKey) :
    (l1 ++ l2).lookup x = (match l1.lookup x with
      | some v => some v
      | none => l2.lookup x) := by
  induction l1 with
  | nil => rfl
  | cons r rs ih =>
    obtain ⟨k, v⟩ := r
    by_cases hk : x = k
    · subst hk
      rw [List.cons_append, List.lookup, List.lookup]
      simp only [beq_self_eq_true]
    · have hbe : (x == k) = false := by simpa using hk
      rw [List.cons_append, List.lookup, List.lookup]
      simp only [hbe]
      exact ih

theorem lookup_filter_not_mem (T : List (PubKey × Nat)) (U : List PubKey)
    (x : PubKey) (hx : x ∉ U) :
    (T.filter (fun e => !U.contains e.1)).lookup x = T.lookup x := by
  induction T with
  | nil => rfl
  | cons r rs ih =>
    obtain ⟨k, v⟩ := r
    by_cases hkU : k ∈ U
    · rw [List.filter_cons_of_neg (by simp [hkU])]
      have hxk : (x == k) = false := by
        simp only [beq_eq_false_iff_ne, ne_eq]
        intro hEq
        exact hx (hEq ▸ hkU)
      rw [ih, List.lookup]
      simp only [hxk]
    · rw [List.filter_cons_of_pos (by simp [hkU])]
      rw [List.lookup, List.lookup]
      cases hxk : (x == k) with
      | true => rfl
      | false => exact ih

theorem lookup_filter_mem (T : List (PubKey × Nat)) (U : List PubKey)
    (x : PubKey) (hx : x ∈ U) :
    (T.filter (fun e => !U.contains e.1)).lookup x = none := by
  induction T with
  | nil => rfl
  | cons r rs ih =>
    obtain ⟨k, v⟩ := r
    by_cases hkU : k ∈ U
    · rw [List.filter_cons_of_neg (by simp [hkU])]
      exact ih
    · rw [List.filter_cons_of_pos (by simp [hkU])]
      have hxk : (x == k) = false := by
        simp only [beq_eq_false_iff_ne, ne_eq]
        intro hEq
        exact hkU (hEq ▸ hx)
      rw [List.lookup]
      simp only [hxk]
      exact ih

theorem lookup_inserts_not_mem (g : FollowsTable) (R : List (PubKey × Nat)) :
    ∀ (U : List PubKey) (x : PubKey), x ∉ U →
    (U.filterMap fun t => (minNat? (parentVals g R t)).map ((t, ·))).lookup x =
      none := by
  intro U
  induction U with
  | nil => intro x _; rfl
  | cons u us ih =>
    intro x hx
    have hxu : x ≠ u := fun hEq => hx (hEq ▸ List.mem_cons_self _ _)
    have hxus : x ∉ us := fun hm => hx (List.mem_cons_of_mem _ hm)
    rw [List.filterMap_cons]
    cases hmu : minNat? (parentVals g R u) with
    | none =>
      simp only [Option.map_none']
      exact ih x hxus
    | some m =>
      simp only [Option.map_some']
      rw [List.lookup]
      simp only [show (x == u) = false by simpa using hxu]
      exact ih x hxus

theorem lookup_inserts_mem (g : FollowsTable) (R : List (PubKey × Nat)) :
    ∀ (U : List PubKey) (t : PubKey), t ∈ U → U.Nodup →
    (U.filterMap fun s => (minNat? (parentVals g R s)).map ((s, ·))).lookup t =
      minNat? (parentVals g R t) := by
  intro U
  induction U with
  | nil =>
    intro t ht _
    exact absurd ht (by simp)
  | cons u us ih =>
    intro t ht hnd
    rw [List.nodup_cons] at hnd
    rw [List.filterMap_cons]
    rcases List.mem_cons.mp ht with rfl | hts
    · cases hmu : minNat? (parentVals g R t) with
      | none =>
        simp only [Option.map_none']
        rw [lookup_inserts_not_mem g R us t hnd.1]
      | some m =>
        simp only [Option.map_some']
        rw [List.lookup]
        simp only [beq_self_eq_true]
    · have htu : t ≠ u := fun hEq => hnd.1 (hEq ▸ hts)
      cases hmu : minNat? (parentVals g R u) with
      | none =>
        simp only [Option.map_none']
        exact ih t hts hnd.2
      | some m =>
        simp only [Option.map_some']
        rw [List.lookup]
        simp only [show (t == u) = false by simpa using htu]
        exact ih t hts hnd.2

theorem deltaApply_keeps (g : FollowsTable) (T : List (PubKey × Nat))
    (U : List PubKey) (x : PubKey) (hx : x ∉ U) :
    (deltaApply g T U).lookup x = T.lookup x := by
  show ((T.filter fun e => !U.contains e.1) ++
    U.filterMap fun t => (minNat? (parentVals g
      (T.filter fun e => !U.contains e.1) t)).map ((t, ·))).lookup x = T.lookup x
  rw [lookup_append]
  cases hr : (T.filter fun e => !U.contains e.1).lookup x with
  | some v =>
    rw [lookup_filter_not_mem T U x hx] at hr
    rw [hr]
  | none =>
    rw [lookup_filter_not_mem T U x hx] at hr
    rw [hr, lookup_inserts_not_mem g _ U x hx]

theorem deltaApply_mem_lookup (g : FollowsTable) (T : List (PubKey × Nat))
    (U : List PubKey) (t : PubKey) (ht : t ∈ U) (hnd : U.Nodup) :
    (deltaApply g T U).lookup t =
      minNat? (parentVals g (T.filter fun e => !U.contains e.1) t) := by
  show ((T.filter fun e => !U.contains e.1) ++
    U.filterMap fun s => (minNat? (parentVals g
      (T.filter fun e => !U.contains e.1) s)).map ((s, ·))).lookup t = _
  rw [lookup_append, lookup_filter_mem T U t ht]
  exact lookup_inserts_mem g _ U t ht hnd

theorem mem_deltaCandidates {g : FollowsTable} {maxD : Nat}
    {T : List (PubKey × Nat)} {F : List PubKey} {t : PubKey} :
    t ∈ deltaCandidates g maxD T F ↔
      ∃ f ∈ g, f.followed = t ∧ F.contains f.follower = true ∧
        ∃ df, T.lookup f.follower = some df ∧ df + 1 ≤ maxD ∧
          (T.lookup t = none ∨ ∃ dt, T.lookup t = some dt ∧ df + 1 < dt) := by
  rw [deltaCandidates, mem_dedupFirstAux]
  simp only [List.mem_filterMap, List.not_mem_nil, not_false_iff, and_true]
  constructor
  · rintro ⟨f, hf, hsome⟩
    refine ⟨f, hf, ?_⟩
    split at hsome
    · rename_i hcont
      split at hsome
      · rename_i df hdf
        split at hsome
        · rename_i hle
          split at hsome
          · rename_i hnone
            rw [Option.some_inj] at hsome
            subst hsome
            exact ⟨rfl, hcont, df, hdf, hle, Or.inl hnone⟩
          · rename_i dt hdt
            split at hsome
            · rename_i hgt
              rw [Option.some_inj] at hsome
              subst hsome
              exact ⟨rfl, hcont, df, hdf, hle, Or.inr ⟨dt, hdt, hgt⟩⟩
            · exact absurd hsome (by simp)
        · exact absurd hsome (by simp)
      · exact absurd hsome (by simp)
    · exact absurd hsome (by simp)
  · rintro ⟨f, hf, hft, hcont, df, hdf, hle, himp⟩
    refine ⟨f, hf, ?_⟩
    rw [if_pos hcont]
    simp only [hdf]
    rw [if_pos hle]
    rcases himp with hnone | ⟨dt, hdt, hgt⟩
    · simp [hft, hnone]
    · simp [hft, hdt, hgt]

theorem noPend_of_not_candidate {g : FollowsTable} {maxD : Nat}
    {T : List (PubKey × Nat)} {F : List PubKey} {x : PubKey}
    (hxF : x ∈ F)
    (hnc : ∀ f ∈ g, f.follower = x → f.followed ∉ deltaCandidates g maxD T F) :
    noPend g maxD T x := by
  intro df hdf f hfg hfx hle
  have hcont : F.contains f.follower = true := by
    rw [hfx]
    simpa using hxF
  have hdf2 : T.lookup f.follower = some df := by
    rw [hfx]
    exact hdf
  cases hlt : T.lookup f.followed with
  | none =>
    exfalso
    apply hnc f hfg hfx
    rw [mem_deltaCandidates]
    exact ⟨f, hfg, rfl, hcont, df, hdf2, hle, Or.inl hlt⟩
  | some dt =>
    by_cases hgt : df + 1 < dt
    · exfalso
      apply hnc f hfg hfx
      rw [mem_deltaCandidates]
      exact ⟨f, hfg, rfl, hcont, df, hdf2, hle, Or.inr ⟨dt, hlt, hgt⟩⟩
    · exact ⟨dt, rfl, by omega⟩

theorem deltaLoop_converged (g : FollowsTable) (maxD : Nat) :
    ∀ (fuel : Nat) (T : List (PubKey × Nat)) (F tracked : List PubKey),
    (∀ x ∈ F, x ∈ tracked) →
    (∀ x ∈ tracked, x ∉ F → noPend g maxD T x) →
    ∀ T2, deltaLoopAux g maxD fuel T F = (T2, true) →
    ∀ x ∈ tracked, noPend g maxD T2 x := by
  intro fuel
  induction fuel with
  | zero =>
    intro T F tracked _ _ T2 hrun
    rw [deltaLoopAux] at hrun
    have hcontra := congrArg Prod.snd hrun
    simp at hcontra
  | succ n ih =>
    intro T F tracked hFt hinv T2 hrun
    rw [deltaLoopAux] at hrun
    by_cases hF : F.isEmpty
    · rw [if_pos hF] at hrun
      have hT : T = T2 := congrArg Prod.fst hrun
      subst hT
      intro x hx
      refine hinv x hx (fun hxF => ?_)
      rw [List.isEmpty_iff] at hF
      rw [hF] at hxF
      exact absurd hxF (by simp)
    · rw [if_neg hF] at hrun
      by_cases hU : (deltaCandidates g maxD T F).isEmpty
      · rw [if_pos hU] at hrun
        have hT : T = T2 := congrArg Prod.fst hrun
        subst hT
        rw [List.isEmpty_iff] at hU
        intro x hx
        by_cases hxF : x ∈ F
        · refine noPend_of_not_candidate hxF (fun f _ _ hmem => ?_)
          rw [hU] at hmem
          exact absurd hmem (by simp)
        · exact hinv x hx hxF
      · rw [if_neg hU] at hrun
        have hnd : (deltaCandidates g maxD T F).Nodup := nodup_dedupFirstAux _ _
        have hinv2 : ∀ x ∈ tracked ++ deltaCandidates g maxD T F,
            x ∉ deltaCandidates g maxD T F →
            noPend g maxD (deltaApply g T (deltaCandidates g maxD T F)) x := by
          intro x hx hxU df hdf f hfg hfx hle
          have hdfT : T.lookup x = some df := by
            rw [← deltaApply_keeps g T (deltaCandidates g maxD T F) x hxU]
            exact hdf
          by_cases htU : f.followed ∈ deltaCandidates g maxD T F
          · have happly := deltaApply_mem_lookup g T
              (deltaCandidates g maxD T F) f.followed htU hnd
            have hxred : ((T.filter fun e =>
                !(deltaCandidates g maxD T F).contains e.1).lookup x) = some df := by
              rw [lookup_filter_not_mem T _ x hxU]
              exact hdfT
            have hmemp : df + 1 ∈ parentVals g
                (T.filter fun e => !(deltaCandidates g maxD T F).contains e.1)
                f.followed := by
              rw [parentVals, List.mem_filterMap]
              refine ⟨f, hfg, ?_⟩
              rw [if_pos (by simp), hfx, hxred]
              rfl
            have hne : parentVals g
                (T.filter fun e => !(deltaCandidates g maxD T F).contains e.1)
                f.followed ≠ [] := by
              intro hnil
              rw [hnil] at hmemp
              exact absurd hmemp (by simp)
            obtain ⟨m, hm⟩ := minNat?_isSome hne
            obtain ⟨_, hmin⟩ := minNat?_is_min hm
            refine ⟨m, ?_, hmin _ hmemp⟩
            rw [happly, hm]
          · have hkeep := deltaApply_keeps g T
              (deltaCandidates g maxD T F) f.followed htU
            by_cases hxF2 : x ∈ F
            · have hcont : F.contains f.follower = true := by
                rw [hfx]
                simpa using hxF2
              have hdf2 : T.lookup f.follower = some df := by
                rw [hfx]
                exact hdfT
              cases hlt : T.lookup f.followed with
              | none =>
                exfalso
                apply htU
                rw [mem_deltaCandidates]
                exact ⟨f, hfg, rfl, hcont, df, hdf2, hle, Or.inl hlt⟩
              | some dt =>
                by_cases hgt : df + 1 < dt
                · exfalso
                  apply htU
                  rw [mem_deltaCandidates]
                  exact ⟨f, hfg, rfl, hcont, df, hdf2, hle, Or.inr ⟨dt, hlt, hgt⟩⟩
                · refine ⟨dt, ?_, by omega⟩
                  rw [hkeep, hlt]
            · have hxt : x ∈ tracked := by
                rcases List.mem_append.mp hx with hx | hx
                · exact hx
                · exact absurd hx hxU
              rcases hinv x hxt hxF2 df hdfT f hfg hfx hle with ⟨dt, hdt, hdtle⟩
              refine ⟨dt, ?_, hdtle⟩
              rw [hkeep, hdt]
        have hres := ih (deltaApply g T (deltaCandidates g maxD T F))
          (deltaCandidates g maxD T F) (tracked ++ deltaCandidates g maxD T F)
          (fun x hx => List.mem_append.mpr (Or.inr hx)) hinv2 T2 hrun
        intro x hx
        exact hres x (List.mem_append.mpr (Or.inl hx))

theorem deltaLoop_frontier_noPend (g : FollowsTable) (maxD fuel : Nat)
    (T : List (PubKey × Nat)) (F : List PubKey) (T2 : List (PubKey × Nat))
    (hrun : deltaLoopAux g maxD fuel T F = (T2, true)) :
    ∀ x ∈ F, noPend g maxD T2 x :=
  deltaLoop_converged g maxD fuel T F F (fun _ hx => hx)
    (fun x hx hnx => absurd hx hnx) T2 hrun

theorem deltaLoop_rerun (g : FollowsTable) (maxD fuel fuel2 : Nat)
    (T : List (PubKey × Nat)) (F : List PubKey) (T2 : List (PubKey × Nat))
    (hrun : deltaLoopAux g maxD fuel T F = (T2, true)) :
    deltaLoopAux g maxD (fuel2 + 1) T2 F = (T2, true) := by
  rw [deltaLoopAux]
  by_cases hF : F.isEmpty
  · rw [if_pos hF]
  · rw [if_neg hF]
    have hU : (deltaCandidates g maxD T2 F).isEmpty = true := by
      rw [List.isEmpty_iff, List.eq_nil_iff_forall_not_mem]
      intro t ht
      rw [mem_deltaCandidates] at ht
      rcases ht with ⟨f, hf, hft, hcont, df, hdf, hle, himp⟩
      have hxF : f.follower ∈ F := by simpa using hcont
      rcases deltaLoop_frontier_noPend g maxD fuel T F T2 hrun f.follower hxF
        df hdf f hf rfl hle with ⟨dt, hdt, hdtle⟩
      rw [hft] at hdt
      rcases himp with hnone | ⟨dt2, hdt2, hgt⟩
      · rw [hnone] at hdt
        cases hdt
      · rw [hdt2, Option.some_inj] at hdt
        omega
    rw [if_pos hU]

theorem deltaLoop_rerun_any (g : FollowsTable) (maxD fuel fuel2 : Nat)
    (T : List (PubKey × Nat)) (F : List PubKey) (T2 : List (PubKey × Nat))
    (hrun : deltaLoopAux g maxD fuel T F = (T2, true)) (hfuel : fuel2 ≠ 0) :
    deltaLoopAux g maxD fuel2 T2 F = (T2, true) := by
  cases fuel2 with
  | zero => exact absurd rfl hfuel
  | succ m => exact deltaLoop_rerun g maxD fuel m T F T2 hrun

theorem updateDelta_rerun (g : FollowsTable) (meta : Option (PubKey × Nat))
    (T T2 : List (PubKey × Nat)) (upd : List String)
    (h : updateRootDistancesDelta g meta T upd = .ok (T2, true)) :
    updateRootDistancesDelta g meta T2 upd = .ok (T2, true) := by
  rw [updateRootDistancesDelta.eq_def] at h ⊢
  by_cases hu : upd.isEmpty
  · rw [if_pos hu] at h ⊢
  · rw [if_neg hu] at h ⊢
    cases meta with
    | none => rfl
    | some p =>
      obtain ⟨r, maxD⟩ := p
      have h2 : (do
          let normd ← upd.mapM normalizePubkey
          pure (deltaLoopAux g maxD (maxD + 2) T normd) :
            Except String (List (PubKey × Nat) × Bool)) = .ok (T2, true) := h
      show (do
          let normd ← upd.mapM normalizePubkey
          pure (deltaLoopAux g maxD (maxD + 2) T2 normd) :
            Except String (List (PubKey × Nat) × Bool)) = .ok (T2, true)
      cases hn : upd.mapM normalizePubkey with
      | error err =>
        rw [hn] at h2
        simp only [errBind, Except.bind, bind] at h2
        exact absurd h2 (by simp)
      | ok normd =>
        rw [hn] at h2
        simp only [okBind, pureEq, Except.bind, bind, pure, Except.pure] at h2 ⊢
        injection h2 with hp
        rw [deltaLoop_rerun_any g maxD (maxD + 2) (maxD + 2) T normd T2 hp
          (by omega)]

theorem shape_idem (g0 : FollowsTable) (evs : List NostrEvent) :
    ((g0.filter (fun f =>
        !(delOfBatch (dedupLatest evs)).contains f.follower) ++
      rowsOfBatch (dedupLatest evs)).filter
        (fun f => !(delOfBatch (dedupLatest evs)).contains f.follower) ++
      rowsOfBatch (dedupLatest evs)) =
    g0.filter (fun f => !(delOfBatch (dedupLatest evs)).contains f.follower) ++
      rowsOfBatch (dedupLatest evs) := by
  rw [List.filter_append]
  have hRp : (rowsOfBatch (dedupLatest evs)).filter
      (fun f => !(delOfBatch (dedupLatest evs)).contains f.follower) = [] := by
    rw [List.filter_eq_nil_iff]
    intro f hf
    have hfd := rowsOfBatch_follower hf
    simp [hfd]
  rw [hRp, List.append_nil, filter_filter_absorb g0 _ _ (fun f hf => hf)]

theorem ingest_twice_edges (g g1 g2 : FollowsTable) (evs : List NostrEvent)
    (h3 : ∀ e ∈ evs, e.kind = 3)
    (h1 : ingestEvents g evs = .ok g1) (h2 : ingestEvents g1 evs = .ok g2) :
    g2 = g1 := by
  rw [ingestEvents_shape g evs h3] at h1
  rw [ingestEvents_shape g1 evs h3] at h2
  injection h1 with h1
  injection h2 with h2
  rw [← h2, ← h1, shape_idem]

/-- C8 (amended): ingesting an identical kind-3 batch twice is idempotent
on the edge set unconditionally, and on the whole analyzer state —
including the root-index distance map — whenever the first delta update
does not return by exhausting its iteration budget of maxDepth + 2
rounds (in particular whenever no root index is active, the delta
errors, or the delta converges). -/
theorem ingest_idempotent_amended (st : AnalyzerState) (evs : List NostrEvent)
    (st1 st2 : AnalyzerState)
    (h3 : ∀ e ∈ evs, e.kind = 3)
    (h1 : anIngestEvents st evs = .ok st1)
    (h2 : anIngestEvents st1 evs = .ok st2) :
    st2.follows = st1.follows ∧
    ((∀ f2 T2, ingestEvents st.follows evs = .ok f2 →
        updateRootDistancesDelta f2 st.meta st.rootTable
          (dedupFirst (evs.map (·.pubkey))) ≠ .ok (T2, false)) →
      st2 = st1) := by
  obtain ⟨fol, rt, rtb, mt, rp, rtv, cl, md⟩ := st
  cases cl with
  | true =>
    simp only [anIngestEvents] at h1
    rw [if_pos trivial, throwEq, errBind] at h1
    exact absurd h1 (by simp)
  | false =>
    simp only [anIngestEvents] at h1
    rw [if_neg (by simp), pureEq, okBind,
      ingestEvents_shape fol evs h3, okBind] at h1
    cases hact : (rp.isSome && rtv) with
    | false =>
      simp only [hact, Bool.false_eq_true, if_false, pureEq] at h1
      injection h1 with hv
      subst hv
      simp only [anIngestEvents] at h2
      rw [if_neg (by simp), pureEq, okBind,
        ingestEvents_shape _ evs h3, okBind, shape_idem] at h2
      simp only [hact, Bool.false_eq_true, if_false, pureEq] at h2
      injection h2 with hv2
      subst hv2
      exact ⟨rfl, fun _ => rfl⟩
    | true =>
      cases hdel : updateRootDistancesDelta
          (fol.filter (fun f =>
            !(delOfBatch (dedupLatest evs)).contains f.follower) ++
            rowsOfBatch (dedupLatest evs)) mt rt
          (dedupFirst (evs.map (·.pubkey))) with
      | ok p =>
        obtain ⟨t, flag⟩ := p
        simp only [hact, if_true, hdel, pureEq] at h1
        injection h1 with hv
        subst hv
        simp only [anIngestEvents] at h2
        rw [if_neg (by simp), pureEq, okBind,
          ingestEvents_shape _ evs h3, okBind, shape_idem] at h2
        simp only [hact, if_true] at h2
        cases hdel2 : updateRootDistancesDelta
            (fol.filter (fun f =>
              !(delOfBatch (dedupLatest evs)).contains f.follower) ++
              rowsOfBatch (dedupLatest evs)) mt t
            (dedupFirst (evs.map (·.pubkey))) with
        | ok p2 =>
          obtain ⟨t2, flag2⟩ := p2
          simp only [hdel2, pureEq] at h2
          injection h2 with hv2
          subst hv2
          refine ⟨rfl, fun hyp => ?_⟩
          have hflag : flag = true := by
            cases flag with
            | true => rfl
            | false =>
              exact absurd hdel (hyp _ t (ingestEvents_shape fol evs h3))
          subst hflag
          have hrerun := updateDelta_rerun _ mt rt t _ hdel
          rw [hdel2] at hrerun
          injection hrerun with hp2
          have ht2 : t2 = t := congrArg Prod.fst hp2
          subst ht2
          rfl
        | error e2 =>
          simp only [hdel2, pureEq] at h2
          injection h2 with hv2
          subst hv2
          refine ⟨rfl, fun hyp => ?_⟩
          have hflag : flag = true := by
            cases flag with
            | true => rfl
            | false =>
              exact absurd hdel (hyp _ t (ingestEvents_shape fol evs h3))
          subst hflag
          have hrerun := updateDelta_rerun _ mt rt t _ hdel
          rw [hdel2] at hrerun
          exact absurd hrerun (by simp)
      | error e1 =>
        simp only [hact, if_true, hdel, pureEq] at h1
        injection h1 with hv
        subst hv
        simp only [anIngestEvents] at h2
        rw [if_neg (by simp), pureEq, okBind,
          ingestEvents_shape _ evs h3, okBind, shape_idem] at h2
        simp only [Bool.and_false, Bool.false_eq_true, if_false, pureEq] at h2
        injection h2 with hv2
        subst hv2
        exact ⟨rfl, fun _ => rfl⟩

theorem ingest_idempotent_amended_witness :
    stW1.follows = stW1.follows ∧ stW1 = stW1 := by
  have h := ingest_idempotent_amended stW0 [mkEvent pka 100 [pkb]] stW1 stW1
    (by decide) rfl rfl
  refine ⟨h.1, h.2 ?_⟩
  intro f2 T2 _ hc
  have hval : updateRootDistancesDelta f2 stW0.meta stW0.rootTable
      (dedupFirst ([mkEvent pka 100 [pkb]].map (·.pubkey))) =
      .ok ([], true) := rfl
  rw [hval] at hc
  injection hc with hp
  have hsnd := congrArg Prod.snd hp
  simp at hsnd

/-- C8 counterexample: ingesting the identical kind-3 batch twice does
not leave the root-index distance map unchanged: from the cascade state
the first ingestion exhausts the delta iteration budget and leaves pk6
unindexed, while the second identical ingestion indexes pk6 at distance
3; the edge set is the same after both. -/
theorem ingest_idempotent_counterexample :
    ((anIngestEvents stCascade evCascade).bind fun s1 =>
      (anIngestEvents s1 evCascade).map fun s2 =>
        (decide (s1.follows = s2.follows), s1.rootTable.lookup pk6,
         s2.rootTable.lookup pk6)) = .ok (true, none, some 3) := by
  decide

end NSD
